import Mathlib

/-!
Verification of the structure-aware chunking engine in
`src/ingestion/chunker.py` together with `src/config.py` and the data
models in `src/models/`.  Text is modelled as `List Char`, which matches
Python's per-codepoint string indexing; Python `int` values that are
always non-negative in the chunking pipeline are modelled as `Nat`.
-/

namespace HalachicChunking

/-- Text as a list of Unicode codepoints (Python `str` indexes by codepoint). -/
abbrev Str := List Char

/-- Python whitespace for `str.split` / `str.strip` / regex `\s`, restricted to
the ASCII whitespace characters; the documents and patterns treated here use
only these (Python would additionally accept rarer Unicode spaces). -/
def isPySpace (c : Char) : Bool :=
  c = ' ' || c = '\t' || c = '\n' || c = '\r' || c = '\x0b' || c = '\x0c'

theorem length_dropWhile_le (p : Char → Bool) (l : Str) :
    (l.dropWhile p).length ≤ l.length := by
  induction l with
  | nil => simp [List.dropWhile]
  | cons c cs ih =>
    by_cases h : p c
    · simp only [List.dropWhile, h]
      exact Nat.le_succ_of_le ih
    · simp [List.dropWhile, h]

/-- Python `str.split()` with no separator: split on runs of whitespace,
dropping empty pieces. -/
def pyWords : Str → List Str
  | [] => []
  | c :: cs =>
    if isPySpace c then pyWords cs
    else (c :: cs.takeWhile (fun d => !isPySpace d))
      :: pyWords (cs.dropWhile (fun d => !isPySpace d))
termination_by t => t.length
decreasing_by
  · simp
  · exact Nat.lt_succ_of_le (length_dropWhile_le _ _)

/-- `" ".join(ws)` from Python. -/
def joinSep : List Str → Str
  | [] => []
  | [w] => w
  | w :: ws => w ++ ' ' :: joinSep ws

/-- Strip trailing whitespace (the tail half of Python `str.strip()`). -/
def stripEnd (t : Str) : Str := (t.reverse.dropWhile isPySpace).reverse

/-- Python `str.strip()` with no argument. -/
def pyStrip (t : Str) : Str := stripEnd (t.dropWhile isPySpace)

/-- `estimate_tokens` from `chunker.py`: `len(text.split())`. -/
def estimate_tokens (t : Str) : Nat := (pyWords t).length

/-- `ChunkingConfig` from `src/config.py`: a pydantic model with four integer
fields and the defaults shown there.  The model declares no validators. -/
structure ChunkingConfig where
  target_tokens : Nat := 450
  max_tokens : Nat := 800
  min_tokens : Nat := 50
  overlap_tokens : Nat := 50
deriving DecidableEq, Repr

/-- Constructing a `ChunkingConfig` as `src/config.py` does: pydantic checks
only that the fields are integers (guaranteed here by the types) and performs
no cross-field or sign validation, so construction always succeeds.  The
`Except` result models pydantic's ability in principle to reject input. -/
def ChunkingConfig.construct (target max_ min_ overlap : Nat) :
    Except String ChunkingConfig :=
  Except.ok ⟨target, max_, min_, overlap⟩

/-- The validity condition the specification imposes on configurations. -/
def ChunkingConfig.valid (cfg : ChunkingConfig) : Prop :=
  0 < cfg.target_tokens ∧ 0 < cfg.max_tokens ∧ 0 < cfg.min_tokens ∧
    0 < cfg.overlap_tokens ∧ cfg.min_tokens ≤ cfg.target_tokens ∧
    cfg.target_tokens ≤ cfg.max_tokens ∧ cfg.overlap_tokens < cfg.target_tokens

/-- `Chunk` from `src/models/chunk.py`.  The `id` field is generated by
`uuid4()` in the source, an external source of randomness no claim refers to;
it is modelled as the constant `""`. -/
structure Chunk where
  id : String := ""
  text : Str
  book_id : String
  book_title : String
  book_author : String := ""
  section_path : Str := []
  section_type : String := ""
  chunk_index : Nat := 0
  total_chunks_in_section : Nat := 1
  language : String := "he"
  char_start : Nat := 0
  char_end : Nat := 0
  token_count : Nat := 0
deriving DecidableEq, Repr

/-- `Section` from `src/models/parsed.py` (a recursive pydantic model). -/
inductive Section : Type where
  | mk (section_type : String) (title : Str) (text : Str)
       (char_start : Nat) (char_end : Nat)
       (subsections : List Section) (level : Nat) : Section
deriving Repr

def Section.section_type : Section → String
  | .mk st _ _ _ _ _ _ => st

def Section.title : Section → Str
  | .mk _ ti _ _ _ _ _ => ti

def Section.text : Section → Str
  | .mk _ _ tx _ _ _ _ => tx

def Section.char_start : Section → Nat
  | .mk _ _ _ s _ _ _ => s

def Section.char_end : Section → Nat
  | .mk _ _ _ _ e _ _ => e

def Section.subsections : Section → List Section
  | .mk _ _ _ _ _ subs _ => subs

def Section.level : Section → Nat
  | .mk _ _ _ _ _ _ lv => lv

/-- A structural marker, the transient dictionaries built in
`HalachicChunker._detect_sections`. -/
structure Marker where
  type : String
  title : Str
  position : Nat
  level : Nat
deriving DecidableEq, Repr

/-- `ParsedBook` from `src/models/parsed.py` (only the fields the chunker
reads matter here). -/
structure ParsedBook where
  title : String
  author : String := ""
  language : String := "he"
  raw_text : Str
  sections : List Section := []
  source_path : String
  file_format : String

/-- The per-book metadata threaded through every chunk constructor call
(`book_id`, `book_title`, `book_author`, `language` in the source). -/
structure BookMeta where
  book_id : String
  book_title : String
  book_author : String
  language : String

/-- `HIERARCHY_LEVELS` from `chunker.py`. -/
def hierarchyLevel (t : String) : Nat :=
  if t = "perek" then 0
  else if t = "siman" then 1
  else if t = "halacha" then 2
  else if t = "seif" then 3
  else if t = "siman_katan" then 4
  else 5

/-! ### Marker scanner

The five regexes in `STRUCTURE_PATTERNS` are embedded as deterministic
matchers.  Each matcher, given whether the current position is a line start
(for the `^` anchor under `re.MULTILINE`) and the remaining text, returns the
length of the match the Python engine would produce there, if any.  The
backtracking behaviour of each pattern collapses to a deterministic
computation because every greedy sub-pattern is followed by a character class
disjoint from it (whitespace runs are followed by non-whitespace literals,
letter runs by `.` or `\s`/`$`). -/

/-- The character class `[א-ת]` (U+05D0 .. U+05EA). -/
def isHebrewLetter (c : Char) : Bool :=
  0x5D0 ≤ c.toNat && c.toNat ≤ 0x5EA

/-- Length of the maximal `\s*` prefix. -/
def wsCount (l : Str) : Nat := (l.takeWhile isPySpace).length

/-- Length of the maximal `[א-ת]*` prefix. -/
def hebCount (l : Str) : Nat := (l.takeWhile isHebrewLetter).length

/-- Does `$` (in `re.MULTILINE`) hold at this position: end of string or just
before a newline. -/
def dollarAt : Str → Bool
  | [] => true
  | c :: _ => c = '\n'

/-- Index of the last `'\n'` in the list, if any. -/
def lastNl : Str → Option Nat
  | [] => none
  | c :: cs =>
    match lastNl cs with
    | some j => some (j + 1)
    | none => if c = '\n' then some 0 else none

/-- Greedy match length for a trailing `\s*$`: the longest whitespace prefix
after which `$` holds. -/
def tailBlankLen (l : Str) : Option Nat :=
  go (wsCount l)
where
  go : Nat → Option Nat
    | 0 => if dollarAt l then some 0 else none
    | j + 1 => if dollarAt (l.drop (j + 1)) then some (j + 1) else go j

/-- Matcher for `"perek": r"^\s*פרק\s+[א-ת]{1,4}\s*$"`. -/
def matchPerek (lineStart : Bool) (l : Str) : Option Nat :=
  if !lineStart then none
  else
    let a := wsCount l
    let l1 := l.drop a
    if "פרק".data.isPrefixOf l1 then
      let l2 := l1.drop 3
      let b := wsCount l2
      if b = 0 then none
      else
        let l3 := l2.drop b
        let h := hebCount l3
        if 1 ≤ h && h ≤ 4 then
          match tailBlankLen (l3.drop h) with
          | some j => some (a + 3 + b + h + j)
          | none => none
        else none
    else none

/-- Shared matcher shape for `"siman"` and `"seif"`:
`^\s*<keyword>\s+[א-ת]{1,4}` with no trailing anchor, so the letter group
greedily takes `min 4` of the available run. -/
def matchKeywordHeading (keyword : Str) (lineStart : Bool) (l : Str) :
    Option Nat :=
  if !lineStart then none
  else
    let a := wsCount l
    let l1 := l.drop a
    if keyword.isPrefixOf l1 then
      let l2 := l1.drop keyword.length
      let b := wsCount l2
      if b = 0 then none
      else
        let h := hebCount (l2.drop b)
        if h = 0 then none else some (a + keyword.length + b + min h 4)
    else none

def matchSiman : Bool → Str → Option Nat := matchKeywordHeading "סימן".data

def matchSeif : Bool → Str → Option Nat := matchKeywordHeading "סעיף".data

/-- Matcher for `"halacha": r"^\s*\.?([א-ת]{1,3})\.\s*$"`.  The engine
consumes the optional leading dot only when a Hebrew letter follows it
(otherwise the mandatory letter group could not match). -/
def matchHalacha (lineStart : Bool) (l : Str) : Option Nat :=
  if !lineStart then none
  else
    let a := wsCount l
    let l1 := l.drop a
    let d : Nat :=
      match l1 with
      | '.' :: c :: _ => if isHebrewLetter c then 1 else 0
      | _ => 0
    let l2 := l1.drop d
    let h := hebCount l2
    if 1 ≤ h && h ≤ 3 then
      match l2.drop h with
      | '.' :: l3 =>
        match tailBlankLen l3 with
        | some j => some (a + d + h + 1 + j)
        | none => none
      | _ => none
    else none

/-- The class `["״׳]`: straight quote, gershayim, geresh. -/
def isGershChar (c : Char) : Bool :=
  c = '"' || c = '״' || c = '׳'

/-- Tail of the `siman_katan` pattern after `ס`, the quote group and `ק`:
`\s+[א-ת]{1,4}`. -/
def simanKatanTail (q : Nat) (l2 : Str) : Option Nat :=
  let b := wsCount l2
  if b = 0 then none
  else
    let h := hebCount (l2.drop b)
    if h = 0 then none else some (1 + q + 1 + b + min h 4)

/-- Matcher for `"siman_katan": r'ס["״׳]{1,2}ק\s+[א-ת]{1,4}'`.
Note: this pattern carries no `^` anchor, so it can match anywhere in a line;
the matcher therefore ignores the line-start flag. -/
def matchSimanKatan (l : Str) : Option Nat :=
  match l with
  | 'ס' :: g1 :: rest =>
    if isGershChar g1 then
      match rest with
      | [] => none
      | c2 :: rest2 =>
        if isGershChar c2 && rest2.head? = some 'ק' then
          simanKatanTail 2 (rest2.drop 1)
        else if c2 = 'ק' then simanKatanTail 1 rest2
        else none
    else none
  | _ => none

/-- `re.finditer` over the text: scan left to right, at each position try the
matcher, and on a match continue after it (all five patterns only produce
matches of positive length, so the zero-length branch is unreachable; it
mirrors how such a match would be skipped).  The boolean tracks whether the
current position is a line start. -/
def scanAux (m : Bool → Str → Option Nat) : Str → Nat → Bool → List (Nat × Nat)
  | [], _, _ => []
  | c :: cs, pos, ls =>
    match m ls (c :: cs) with
    | some len =>
      if hlen : len = 0 then scanAux m cs (pos + 1) (c = '\n')
      else
        (pos, len) :: scanAux m ((c :: cs).drop len) (pos + len)
          (((c :: cs).get? (len - 1)) == some '\n')
    | none => scanAux m cs (pos + 1) (c = '\n')
termination_by l _ _ => l.length
decreasing_by
  all_goals simp only [List.length_drop, List.length_cons]
  all_goals omega

/-- Python `matched.strip().rstrip(".").lstrip(".").strip()` applied to
`match.group()` when a marker is recorded. -/
def markerTitle (matched : Str) : Str :=
  pyStrip ((((pyStrip matched).reverse.dropWhile (· = '.')).reverse).dropWhile
    (· = '.'))

/-- All markers one pattern contributes, in scan order. -/
def scanPattern (name : String) (m : Bool → Str → Option Nat) (text : Str) :
    List Marker :=
  (scanAux m text 0 true).map fun pr =>
    { type := name
      title := markerTitle ((text.drop pr.1).take pr.2)
      position := pr.1
      level := hierarchyLevel name }

/-- `STRUCTURE_PATTERNS` in its source (insertion) order. -/
def patternTable : List (String × (Bool → Str → Option Nat)) :=
  [("perek", matchPerek), ("siman", matchSiman), ("seif", matchSeif),
   ("halacha", matchHalacha), ("siman_katan", fun _ l => matchSimanKatan l)]

/-- Stable insertion sort by `position`, matching Python's stable
`markers.sort(key=lambda m: m["position"])`. -/
def insertByPos (m : Marker) : List Marker → List Marker
  | [] => [m]
  | x :: xs => if x.position < m.position then x :: insertByPos m xs
               else m :: x :: xs

def sortByPos : List Marker → List Marker
  | [] => []
  | m :: ms => insertByPos m (sortByPos ms)

/-- The marker-collection half of `HalachicChunker._detect_sections`. -/
def detectMarkers (text : Str) : List Marker :=
  sortByPos ((patternTable.map fun p => scanPattern p.1 p.2 text).flatten)

/-! ### Section tree builder

`HalachicChunker._build_section_tree` mutates `Section` objects: a new
section is appended to its parent's `subsections` list when pushed, and its
own `subsections` list keeps growing while it sits on the stack.  The
functional embedding keeps each open section as a `Frame` holding its fields
and its children accumulated so far (in reverse); a section's `Section` value
is produced when it is popped, at which point its child list is final.  A
popped section is appended to the frame below it on the stack — which is
exactly the parent it was attached to at push time in the source, because
everything pushed above a section is popped before it — or recorded as a
root when the stack is empty below it.  Sibling order is preserved because a
child is always popped before its next sibling is pushed. -/

structure Frame where
  section_type : String
  title : Str
  text : Str
  char_start : Nat
  char_end : Nat
  level : Nat
  revChildren : List Section

def Frame.finalize (f : Frame) : Section :=
  .mk f.section_type f.title f.text f.char_start f.char_end
    f.revChildren.reverse f.level

/-- Pop every stack entry whose level is `>=` the new marker's level
(`while stack and stack[-1].level >= level: stack.pop()`), finalizing each
popped section into its parent frame or the reversed root list. -/
def popGE (level : Nat) : List Frame → List Section → List Frame × List Section
  | [], revRoots => ([], revRoots)
  | f :: rest, revRoots =>
    if level ≤ f.level then
      match rest with
      | [] => popGE level [] (f.finalize :: revRoots)
      | g :: rest2 =>
        popGE level ({ g with revChildren := f.finalize :: g.revChildren } :: rest2)
          revRoots
    else (f :: rest, revRoots)
termination_by stack _ => stack.length
decreasing_by all_goals simp

/-- Close every frame still open when the markers run out. -/
def flushAll : List Frame → List Section → List Section
  | [], revRoots => revRoots
  | f :: rest, revRoots =>
    match rest with
    | [] => flushAll [] (f.finalize :: revRoots)
    | g :: rest2 =>
      flushAll ({ g with revChildren := f.finalize :: g.revChildren } :: rest2)
        revRoots
termination_by stack _ => stack.length
decreasing_by all_goals simp

/-- The per-marker loop of `_build_section_tree`: the section's span runs
from its own position to the next marker's position (or the end of the
text), stripped; entries at the same or a deeper level are popped before the
new section is pushed. -/
def buildLoop (text : Str) : List Marker → List Frame → List Section → List Section
  | [], stack, revRoots => (flushAll stack revRoots).reverse
  | mk :: rest, stack, revRoots =>
    let endPos :=
      match rest with
      | [] => text.length
      | nxt :: _ => nxt.position
    let sectionText := pyStrip ((text.drop mk.position).take (endPos - mk.position))
    let pr := popGE mk.level stack revRoots
    let frame : Frame :=
      { section_type := mk.type, title := mk.title, text := sectionText,
        char_start := mk.position, char_end := endPos, level := mk.level,
        revChildren := [] }
    buildLoop text rest (frame :: pr.1) pr.2

/-- `HalachicChunker._build_section_tree`. -/
def buildSectionTree (markers : List Marker) (text : Str) : List Section :=
  buildLoop text markers [] []

/-- `HalachicChunker._detect_sections`. -/
def detectSections (text : Str) : List Section :=
  let markers := (patternTable.map fun p => scanPattern p.1 p.2 text).flatten
  if markers = [] then []
  else buildSectionTree (sortByPos markers) text

/-! ### Sliding-window splitter -/

/-- The `while pos < len(words)` loop of
`HalachicChunker._sliding_window_chunks`. -/
def slidingLoop (cfg : ChunkingConfig) (bk : BookMeta) (path : Str)
    (stype : String) (charOffset textLen : Nat) (words : List Str) :
    Nat → List Chunk
  | pos =>
    if hp : pos < words.length then
      let e := min (pos + cfg.target_tokens) words.length
      let chunkWords := (words.drop pos).take (e - pos)
      let chunkText := joinSep chunkWords
      -- The source first assigns `char_start` from `text.find(...)` and
      -- immediately overwrites it with the proportional estimate, so only
      -- the proportional formula is observable.  Python evaluates
      -- `int(pos / len(words) * len(text))` in floating point; it is
      -- modelled as the exact rational floor.  No claim under verification
      -- depends on these two fields of loop-emitted window chunks.
      let cs := charOffset + pos * textLen / words.length
      let ce := charOffset + e * textLen / words.length
      let ck : Chunk :=
        { text := chunkText, book_id := bk.book_id, book_title := bk.book_title,
          book_author := bk.book_author, section_path := path,
          section_type := stype, language := bk.language, char_start := cs,
          char_end := ce, token_count := chunkWords.length }
      if words.length ≤ e then [ck]
      else
        ck :: slidingLoop cfg bk path stype charOffset textLen words
          (pos + max (cfg.target_tokens - cfg.overlap_tokens) 1)
    else []
termination_by pos => words.length - pos
decreasing_by
  have h1 : 1 ≤ max (cfg.target_tokens - cfg.overlap_tokens) 1 :=
    Nat.le_max_right _ _
  omega

/-- `HalachicChunker._sliding_window_chunks`. -/
def slidingWindowChunks (cfg : ChunkingConfig) (bk : BookMeta) (text : Str)
    (path : Str) (stype : String) (charOffset : Nat) : List Chunk :=
  let words := pyWords text
  if words = [] then []
  else if words.length ≤ cfg.max_tokens then
    [{ text := pyStrip text, book_id := bk.book_id, book_title := bk.book_title,
       book_author := bk.book_author, section_path := path, section_type := stype,
       language := bk.language, char_start := charOffset,
       char_end := charOffset + text.length, token_count := words.length }]
  else slidingLoop cfg bk path stype charOffset text.length words 0

/-! ### Hierarchical chunk assembler -/

/-- `HalachicChunker._build_section_path` (an empty parent path is falsy in
Python). -/
def buildSectionPath (parentPath : Str) (s : Section) : Str :=
  if parentPath = [] then s.title else parentPath ++ " > ".data ++ s.title

mutual

/-- `HalachicChunker._chunk_sections`: iterate the sections in order,
concatenating each section's chunks. -/
def chunkSections (cfg : ChunkingConfig) (bk : BookMeta) :
    List Section → Str → List Chunk
  | [], _ => []
  | s :: rest, parentPath =>
    chunkOneSection cfg bk s parentPath ++ chunkSections cfg bk rest parentPath

/-- The body of the `for section in sections` loop of `_chunk_sections`:
recurse into subsections when there are any, otherwise emit the leaf (one
chunk when it fits `max_tokens` and strips non-empty, the sliding window
when it exceeds `max_tokens`). -/
def chunkOneSection (cfg : ChunkingConfig) (bk : BookMeta) :
    Section → Str → List Chunk
  | s, parentPath =>
    let path := buildSectionPath parentPath s
    match s with
    | .mk stype _ stext cstart cend subs _ =>
      match subs with
      | [] =>
        let token_count := estimate_tokens stext
        if token_count ≤ cfg.max_tokens then
          if pyStrip stext ≠ [] then
            [{ text := stext, book_id := bk.book_id, book_title := bk.book_title,
               book_author := bk.book_author, section_path := path,
               section_type := stype, language := bk.language,
               char_start := cstart, char_end := cend,
               token_count := token_count }]
          else []
        else slidingWindowChunks cfg bk stext path stype cstart
      | sub0 :: subRest => chunkSections cfg bk (sub0 :: subRest) path

end

/-! ### Paragraph fallback -/

/-- Greedy match length of `re.split`'s pattern `\n\s*\n` at the head of the
list: a newline, a greedy whitespace run, and a final newline; with
backtracking the final newline is the last `'\n'` inside the whitespace run
that follows the first character. -/
def blankMatchLen : Str → Option Nat
  | [] => none
  | c :: rest =>
    if c = '\n' then (lastNl (rest.takeWhile isPySpace)).map (· + 2) else none

theorem blankMatchLen_ge_two {l : Str} {len : Nat}
    (h : blankMatchLen l = some len) : 2 ≤ len := by
  match l with
  | [] => simp [blankMatchLen] at h
  | c :: rest =>
    by_cases hc : c = '\n'
    · subst hc
      simp only [blankMatchLen, if_pos, Option.map_eq_some'] at h
      obtain ⟨j, -, hj⟩ := h
      omega
    · simp [blankMatchLen, hc] at h

/-- `re.split(r"\n\s*\n", text)`: leftmost, non-overlapping matches cut the
text into pieces (empty pieces included, as in Python). -/
def splitParasAux : Str → Str → List Str
  | acc, [] => [acc.reverse]
  | acc, c :: cs =>
    match h : blankMatchLen (c :: cs) with
    | some len => acc.reverse :: splitParasAux [] ((c :: cs).drop len)
    | none => splitParasAux (c :: acc) cs
termination_by _ l => l.length
decreasing_by
  all_goals first
    | (have h2 := blankMatchLen_ge_two h
       simp only [List.length_drop, List.length_cons]
       omega)
    | simp

def splitParas (text : Str) : List Str := splitParasAux [] text

/-- Python `hay.find(sub, start)`, as an `Option` (the source compares the
result against `-1`). -/
def strFindAux (hay sub : Str) : Nat → Nat → Option Nat
  | _, 0 => none
  | i, fuel + 1 =>
    if sub.isPrefixOf (hay.drop i) then some i
    else strFindAux hay sub (i + 1) fuel

def strFindFrom (hay sub : Str) (start : Nat) : Option Nat :=
  strFindAux hay sub start (hay.length + 1 - start)

/-- The `for para in paragraphs` loop of
`HalachicChunker._chunk_by_paragraphs`, threading `current_pos`. -/
def paraLoop (cfg : ChunkingConfig) (bk : BookMeta) (text : Str) (path : Str)
    (charOffset : Nat) : List Str → Nat → List Chunk
  | [], _ => []
  | para :: rest, currentPos =>
    let paraStripped := pyStrip para
    if paraStripped = [] then
      paraLoop cfg bk text path charOffset rest (currentPos + para.length + 1)
    else
      let paraStart :=
        match strFindFrom text para currentPos with
        | some p => p
        | none => currentPos
      let paraEnd := paraStart + para.length
      let token_count := estimate_tokens paraStripped
      (if cfg.max_tokens < token_count then
        slidingWindowChunks cfg bk paraStripped path "paragraph"
          (charOffset + paraStart)
      else
        [{ text := paraStripped, book_id := bk.book_id,
           book_title := bk.book_title, book_author := bk.book_author,
           section_path := path, section_type := "paragraph",
           language := bk.language, char_start := charOffset + paraStart,
           char_end := charOffset + paraEnd, token_count := token_count }]) ++
        paraLoop cfg bk text path charOffset rest paraEnd

/-- `HalachicChunker._chunk_by_paragraphs`. -/
def chunkByParagraphs (cfg : ChunkingConfig) (bk : BookMeta) (text : Str)
    (path : Str) (charOffset : Nat) : List Chunk :=
  paraLoop cfg bk text path charOffset (splitParas text) 0

/-! ### Small-chunk merger -/

/-- The merge condition of `HalachicChunker._merge_small_chunks`. -/
def mergeCond (cfg : ChunkingConfig) (prev c : Chunk) : Bool :=
  prev.token_count < cfg.min_tokens &&
    prev.token_count + c.token_count ≤ cfg.max_tokens &&
    prev.section_path == c.section_path

/-- The merged chunk the source constructs (a fresh `Chunk`, so `id`,
`chunk_index` and `total_chunks_in_section` take their model defaults). -/
def combineChunks (prev c : Chunk) : Chunk :=
  { id := "", text := prev.text ++ '\n' :: '\n' :: c.text,
    book_id := prev.book_id, book_title := prev.book_title,
    book_author := prev.book_author, section_path := prev.section_path,
    section_type := prev.section_type, chunk_index := 0,
    total_chunks_in_section := 1, language := prev.language,
    char_start := prev.char_start, char_end := c.char_end,
    token_count := prev.token_count + c.token_count }

/-- The `for chunk in chunks[1:]` loop of `_merge_small_chunks`; `prev` is
`merged[-1]`. -/
def mergeLoop (cfg : ChunkingConfig) (prev : Chunk) : List Chunk → List Chunk
  | [] => [prev]
  | c :: cs =>
    if mergeCond cfg prev c then mergeLoop cfg (combineChunks prev c) cs
    else prev :: mergeLoop cfg c cs

/-- `HalachicChunker._merge_small_chunks`. -/
def mergeSmallChunks (cfg : ChunkingConfig) : List Chunk → List Chunk
  | [] => []
  | c :: cs => mergeLoop cfg c cs

/-! ### Index assigner -/

/-- Number of chunks in `cs` whose `section_path` equals `p`. -/
def countPath (p : Str) (cs : List Chunk) : Nat :=
  (cs.filter fun c => c.section_path == p).length

/-- `HalachicChunker._assign_indices`.  The source groups the list by
`section_path` through an insertion-ordered dict and then writes, in place,
each chunk's 0-based position inside its group and the group's size; since
grouping preserves first-seen order, a chunk's position inside its group is
the number of earlier chunks with the same path, the group size is the total
number of chunks with that path, and the in-place mutation leaves the list
order unchanged.  `assignLoop` expresses exactly that, threading the prefix
already passed. -/
def assignLoop (allChunks : List Chunk) : List Chunk → List Chunk → List Chunk
  | _, [] => []
  | prior, c :: rest =>
    { c with chunk_index := countPath c.section_path prior,
             total_chunks_in_section := countPath c.section_path allChunks } ::
      assignLoop allChunks (prior ++ [c]) rest

def assignIndices (cs : List Chunk) : List Chunk := assignLoop cs [] cs

/-! ### Top-level pipeline -/

/-- `HalachicChunker.chunk`.  When the caller passes no `book_id` the source
generates a UUID — external randomness no claim refers to — so the effective
book id is a parameter here. -/
def chunk (cfg : ChunkingConfig) (book : ParsedBook) (bookId : String) :
    List Chunk :=
  let text := book.raw_text
  if pyStrip text = [] then []
  else
    let bk : BookMeta := ⟨bookId, book.title, book.author, book.language⟩
    let sections := detectSections text
    let chunks :=
      match sections with
      | [] => chunkByParagraphs cfg bk text [] 0
      | s0 :: srest => chunkSections cfg bk (s0 :: srest) []
    assignIndices (mergeSmallChunks cfg chunks)

/-! ## Lemmas about word splitting -/

theorem pyWords_nil : pyWords [] = [] := by
  simp [pyWords]

theorem pyWords_cons_ws {c : Char} (hc : isPySpace c = true) (cs : Str) :
    pyWords (c :: cs) = pyWords cs := by
  rw [pyWords]
  simp [hc]

theorem pyWords_cons_nonws {c : Char} (hc : isPySpace c = false) (cs : Str) :
    pyWords (c :: cs) =
      (c :: cs.takeWhile fun d => !isPySpace d)
        :: pyWords (cs.dropWhile fun d => !isPySpace d) := by
  rw [pyWords]
  simp [hc]

/-- Every word produced by `pyWords` is non-empty and whitespace-free. -/
theorem pyWords_sound (t : Str) :
    ∀ w ∈ pyWords t, w ≠ [] ∧ ∀ c ∈ w, isPySpace c = false := by
  match t with
  | [] => simp [pyWords_nil]
  | c :: cs =>
    by_cases hc : isPySpace c
    · rw [pyWords_cons_ws hc]
      exact pyWords_sound cs
    · have hc' : isPySpace c = false := by simpa using hc
      rw [pyWords_cons_nonws hc']
      intro w hw
      rcases List.mem_cons.mp hw with hw | hw
      · subst hw
        refine ⟨by simp, ?_⟩
        intro d hd
        rcases List.mem_cons.mp hd with hd | hd
        · subst hd; exact hc'
        · simpa using List.mem_takeWhile_imp hd
      · exact pyWords_sound _ w hw
termination_by t.length
decreasing_by
  · simp
  · exact Nat.lt_succ_of_le (length_dropWhile_le _ _)

theorem takeWhile_append_neg {q : Char → Bool} {c : Char} (hq : q c = false)
    (x y : Str) : (x ++ c :: y).takeWhile q = x.takeWhile q := by
  induction x with
  | nil => simp [List.takeWhile_cons, hq]
  | cons d xs ih =>
    by_cases hd : q d
    · simp [List.takeWhile_cons, hd, ih]
    · simp [List.takeWhile_cons, hd]

theorem dropWhile_append_neg {q : Char → Bool} {c : Char} (hq : q c = false)
    (x y : Str) : (x ++ c :: y).dropWhile q = x.dropWhile q ++ c :: y := by
  induction x with
  | nil => simp [List.dropWhile_cons, hq]
  | cons d xs ih =>
    by_cases hd : q d
    · simp [List.dropWhile_cons, hd, ih]
    · simp [List.dropWhile_cons, hd]

/-- Splitting across a whitespace character splits into independent halves. -/
theorem pyWords_append_ws {c : Char} (hc : isPySpace c = true) (a b : Str) :
    pyWords (a ++ c :: b) = pyWords a ++ pyWords b := by
  match a with
  | [] => simp [pyWords_cons_ws hc, pyWords_nil]
  | d :: a1 =>
    by_cases hd : isPySpace d
    · rw [List.cons_append, pyWords_cons_ws hd, pyWords_cons_ws hd]
      exact pyWords_append_ws hc a1 b
    · have hd' : isPySpace d = false := by simpa using hd
      have hq : (fun e => !isPySpace e) c = false := by simp [hc]
      rw [List.cons_append, pyWords_cons_nonws hd', pyWords_cons_nonws hd',
        takeWhile_append_neg hq, dropWhile_append_neg hq]
      rw [pyWords_append_ws hc _ b]
      simp
termination_by a.length
decreasing_by
  · simp
  · exact Nat.lt_succ_of_le (length_dropWhile_le _ _)

/-- A non-empty whitespace-free string is a single word. -/
theorem pyWords_single {w : Str} (hne : w ≠ [])
    (hall : ∀ c ∈ w, isPySpace c = false) : pyWords w = [w] := by
  match w with
  | [] => exact absurd rfl hne
  | c :: cs =>
    have hc := hall c (by simp)
    rw [pyWords_cons_nonws hc]
    have htk : cs.takeWhile (fun d => !isPySpace d) = cs :=
      List.takeWhile_eq_self_iff.mpr fun d hd => by
        simp [hall d (List.mem_cons_of_mem _ hd)]
    have hdr : cs.dropWhile (fun d => !isPySpace d) = [] :=
      List.dropWhile_eq_nil_iff.mpr fun d hd => by
        simp [hall d (List.mem_cons_of_mem _ hd)]
    rw [htk, hdr, pyWords_nil]

theorem joinSep_pair (w w2 : Str) (rest : List Str) :
    joinSep (w :: w2 :: rest) = w ++ ' ' :: joinSep (w2 :: rest) := rfl

/-- `" ".join` of non-empty whitespace-free words splits back to them. -/
theorem pyWords_joinSep (ws : List Str)
    (h : ∀ w ∈ ws, w ≠ [] ∧ ∀ c ∈ w, isPySpace c = false) :
    pyWords (joinSep ws) = ws := by
  match ws with
  | [] => simp [joinSep, pyWords_nil]
  | [w] =>
    show pyWords w = [w]
    exact pyWords_single (h w (by simp)).1 (h w (by simp)).2
  | w :: w2 :: rest =>
    rw [joinSep_pair, pyWords_append_ws (by simp [isPySpace]) w (joinSep (w2 :: rest)),
      pyWords_single (h w (by simp)).1 (h w (by simp)).2,
      pyWords_joinSep (w2 :: rest) fun v hv => h v (List.mem_cons_of_mem _ hv)]
    simp

/-- An all-whitespace string has no words. -/
theorem pyWords_allws (v : Str) (hv : ∀ c ∈ v, isPySpace c = true) :
    pyWords v = [] := by
  induction v with
  | nil => exact pyWords_nil
  | cons c cs ih =>
    rw [pyWords_cons_ws (hv c (by simp))]
    exact ih fun d hd => hv d (List.mem_cons_of_mem _ hd)

/-- Appending trailing whitespace does not change the words. -/
theorem pyWords_append_allws (u v : Str) (hv : ∀ c ∈ v, isPySpace c = true) :
    pyWords (u ++ v) = pyWords u := by
  match v with
  | [] => simp
  | c :: v1 =>
    have hc : isPySpace c = true := hv c (by simp)
    rw [pyWords_append_ws hc u v1,
      pyWords_allws v1 fun d hd => hv d (List.mem_cons_of_mem _ hd)]
    simp

/-- Dropping leading whitespace does not change the words. -/
theorem pyWords_dropWhile_ws (t : Str) :
    pyWords (t.dropWhile isPySpace) = pyWords t := by
  induction t with
  | nil => simp
  | cons c cs ih =>
    by_cases hc : isPySpace c
    · rw [List.dropWhile_cons_of_pos hc, ih, pyWords_cons_ws hc]
    · rw [List.dropWhile_cons_of_neg (by simpa using hc)]

/-- `str.strip()` does not change the words. -/
theorem pyWords_pyStrip (t : Str) : pyWords (pyStrip t) = pyWords t := by
  rw [pyStrip, ← pyWords_dropWhile_ws t]
  set u := t.dropWhile isPySpace with hu
  have hsplit : u = stripEnd u ++ (u.reverse.takeWhile isPySpace).reverse := by
    rw [stripEnd]
    have := List.takeWhile_append_dropWhile isPySpace u.reverse
    calc u = u.reverse.reverse := by simp
    _ = (u.reverse.takeWhile isPySpace ++ u.reverse.dropWhile isPySpace).reverse := by
        rw [this]
    _ = _ := by rw [List.reverse_append]
  conv_rhs => rw [hsplit]
  rw [pyWords_append_allws]
  intro c hc
  rw [List.mem_reverse] at hc
  exact List.mem_takeWhile_imp hc

theorem pyWords_of_pyStrip_nil {t : Str} (h : pyStrip t = []) :
    pyWords t = [] := by
  rw [← pyWords_pyStrip t, h, pyWords_nil]

/-- `estimate_tokens` is unchanged by stripping. -/
theorem estimate_tokens_pyStrip (t : Str) :
    estimate_tokens (pyStrip t) = estimate_tokens t := by
  rw [estimate_tokens, estimate_tokens, pyWords_pyStrip]

/-- The words of merged text are the two word lists concatenated. -/
theorem pyWords_merge_sep (a b : Str) :
    pyWords (a ++ '\n' :: '\n' :: b) = pyWords a ++ pyWords b := by
  rw [pyWords_append_ws (by simp [isPySpace]) a ('\n' :: b),
    pyWords_cons_ws (by simp [isPySpace])]

/-! ## The token-count invariant (claim C7) -/

/-- `token_count == estimate_tokens(text)`. -/
def tokenOK (c : Chunk) : Prop := c.token_count = estimate_tokens c.text

theorem estimate_tokens_joinSep (cw : List Str)
    (h : ∀ w ∈ cw, w ≠ [] ∧ ∀ ch ∈ w, isPySpace ch = false) :
    estimate_tokens (joinSep cw) = cw.length := by
  rw [estimate_tokens, pyWords_joinSep cw h]

theorem slidingLoop_tokenOK (cfg : ChunkingConfig) (bk : BookMeta) (path : Str)
    (stype : String) (off tlen : Nat) (words : List Str)
    (hw : ∀ w ∈ words, w ≠ [] ∧ ∀ ch ∈ w, isPySpace ch = false) (pos : Nat) :
    ∀ c ∈ slidingLoop cfg bk path stype off tlen words pos, tokenOK c := by
  rw [slidingLoop]
  split
  case isTrue hp =>
    dsimp only
    set e := min (pos + cfg.target_tokens) words.length with he
    have hcw : ∀ w ∈ (words.drop pos).take (e - pos),
        w ≠ [] ∧ ∀ ch ∈ w, isPySpace ch = false := fun w hwmem =>
      hw w (List.drop_subset _ _ (List.take_subset _ _ hwmem))
    have hck : tokenOK
        { text := joinSep ((words.drop pos).take (e - pos)), book_id := bk.book_id,
          book_title := bk.book_title, book_author := bk.book_author,
          section_path := path, section_type := stype, language := bk.language,
          char_start := off + pos * tlen / words.length,
          char_end := off + e * tlen / words.length,
          token_count := ((words.drop pos).take (e - pos)).length } := by
      show _ = estimate_tokens _
      rw [estimate_tokens_joinSep _ hcw]
    split
    · intro c hc
      rw [List.mem_singleton] at hc
      subst hc
      exact hck
    · intro c hc
      rcases List.mem_cons.mp hc with hc | hc
      · subst hc; exact hck
      · exact slidingLoop_tokenOK cfg bk path stype off tlen words hw _ c hc
  · simp
termination_by words.length - pos
decreasing_by
  have h1 : 1 ≤ max (cfg.target_tokens - cfg.overlap_tokens) 1 :=
    Nat.le_max_right _ _
  omega

theorem slidingWindowChunks_tokenOK (cfg : ChunkingConfig) (bk : BookMeta)
    (text path : Str) (stype : String) (off : Nat) :
    ∀ c ∈ slidingWindowChunks cfg bk text path stype off, tokenOK c := by
  rw [slidingWindowChunks]
  split
  · simp
  · split
    · intro c hc
      rw [List.mem_singleton] at hc
      subst hc
      show _ = estimate_tokens _
      rw [estimate_tokens_pyStrip, estimate_tokens]
    · exact slidingLoop_tokenOK cfg bk path stype off text.length (pyWords text)
        (pyWords_sound text) 0

mutual

theorem chunkSections_tokenOK (cfg : ChunkingConfig) (bk : BookMeta)
    (ss : List Section) (pp : Str) :
    ∀ c ∈ chunkSections cfg bk ss pp, tokenOK c := by
  match ss with
  | [] => simp [chunkSections]
  | s :: rest =>
    rw [chunkSections]
    intro c hc
    rcases List.mem_append.mp hc with hc | hc
    · exact chunkOneSection_tokenOK cfg bk s pp c hc
    · exact chunkSections_tokenOK cfg bk rest pp c hc

theorem chunkOneSection_tokenOK (cfg : ChunkingConfig) (bk : BookMeta)
    (s : Section) (pp : Str) :
    ∀ c ∈ chunkOneSection cfg bk s pp, tokenOK c := by
  match s with
  | .mk stype title stext cstart cend [] lv =>
    rw [chunkOneSection.eq_def]
    dsimp only
    split
    · split
      · intro c hc
        rw [List.mem_singleton] at hc
        subst hc
        rfl
      · simp
    · exact slidingWindowChunks_tokenOK cfg bk stext _ stype cstart
  | .mk stype title stext cstart cend (sub0 :: subRest) lv =>
    rw [chunkOneSection.eq_def]
    dsimp only
    exact chunkSections_tokenOK cfg bk (sub0 :: subRest) _

end

theorem paraLoop_tokenOK (cfg : ChunkingConfig) (bk : BookMeta) (text path : Str)
    (off : Nat) (paras : List Str) (curPos : Nat) :
    ∀ c ∈ paraLoop cfg bk text path off paras curPos, tokenOK c := by
  match paras with
  | [] => simp [paraLoop]
  | para :: rest =>
    rw [paraLoop]
    split
    · exact paraLoop_tokenOK cfg bk text path off rest _
    · intro c hc
      rcases List.mem_append.mp hc with hc | hc
      · revert hc
        split
        · intro hc
          exact slidingWindowChunks_tokenOK cfg bk _ path "paragraph" _ c hc
        · intro hc
          rw [List.mem_singleton] at hc
          subst hc
          rfl
      · exact paraLoop_tokenOK cfg bk text path off rest _ c hc

theorem chunkByParagraphs_tokenOK (cfg : ChunkingConfig) (bk : BookMeta)
    (text path : Str) (off : Nat) :
    ∀ c ∈ chunkByParagraphs cfg bk text path off, tokenOK c :=
  paraLoop_tokenOK cfg bk text path off (splitParas text) 0

theorem combineChunks_tokenOK {prev c : Chunk} (hp : tokenOK prev)
    (hc : tokenOK c) : tokenOK (combineChunks prev c) := by
  show _ = estimate_tokens _
  rw [tokenOK] at hp hc
  show prev.token_count + c.token_count =
    estimate_tokens (prev.text ++ '\n' :: '\n' :: c.text)
  rw [estimate_tokens, pyWords_merge_sep, List.length_append, hp, hc,
    estimate_tokens, estimate_tokens]

theorem mergeLoop_tokenOK (cfg : ChunkingConfig) (cs : List Chunk)
    (prev : Chunk) (hp : tokenOK prev) (hcs : ∀ c ∈ cs, tokenOK c) :
    ∀ c ∈ mergeLoop cfg prev cs, tokenOK c := by
  match cs with
  | [] =>
    rw [mergeLoop]
    intro c hc
    rw [List.mem_singleton] at hc
    subst hc
    exact hp
  | c0 :: rest =>
    rw [mergeLoop]
    have hc0 : tokenOK c0 := hcs c0 (by simp)
    have hrest : ∀ c ∈ rest, tokenOK c := fun c hc =>
      hcs c (List.mem_cons_of_mem _ hc)
    split
    · exact mergeLoop_tokenOK cfg rest _ (combineChunks_tokenOK hp hc0) hrest
    · intro c hc
      rcases List.mem_cons.mp hc with hc | hc
      · subst hc; exact hp
      · exact mergeLoop_tokenOK cfg rest c0 hc0 hrest c hc

theorem mergeSmallChunks_tokenOK (cfg : ChunkingConfig) (cs : List Chunk)
    (hcs : ∀ c ∈ cs, tokenOK c) : ∀ c ∈ mergeSmallChunks cfg cs, tokenOK c := by
  match cs with
  | [] => simp [mergeSmallChunks]
  | c0 :: rest =>
    rw [mergeSmallChunks]
    exact mergeLoop_tokenOK cfg rest c0 (hcs c0 (by simp))
      (fun c hc => hcs c (List.mem_cons_of_mem _ hc))

theorem assignLoop_tokenOK (allChunks : List Chunk) (rest prior : List Chunk)
    (hrest : ∀ c ∈ rest, tokenOK c) :
    ∀ c ∈ assignLoop allChunks prior rest, tokenOK c := by
  match rest with
  | [] => simp [assignLoop]
  | c0 :: rest1 =>
    rw [assignLoop]
    intro c hc
    rcases List.mem_cons.mp hc with hc | hc
    · subst hc
      exact hrest c0 (by simp)
    · exact assignLoop_tokenOK allChunks rest1 _
        (fun c hc => hrest c (List.mem_cons_of_mem _ hc)) c hc

theorem assignIndices_tokenOK (cs : List Chunk) (hcs : ∀ c ∈ cs, tokenOK c) :
    ∀ c ∈ assignIndices cs, tokenOK c :=
  assignLoop_tokenOK cs cs [] hcs

/-! ## The small-chunk merger (claims C8 and C10) -/

/-- The head of `mergeLoop`'s output keeps the accumulator's path and at
least its token count. -/
theorem mergeLoop_head (cfg : ChunkingConfig) (cs : List Chunk) (prev : Chunk) :
    ∃ hd tl, mergeLoop cfg prev cs = hd :: tl ∧
      hd.section_path = prev.section_path ∧ prev.token_count ≤ hd.token_count := by
  match cs with
  | [] => exact ⟨prev, [], by rw [mergeLoop], rfl, le_rfl⟩
  | c :: rest =>
    rw [mergeLoop]
    split
    · obtain ⟨hd, tl, heq, hpath, htok⟩ := mergeLoop_head cfg rest (combineChunks prev c)
      refine ⟨hd, tl, heq, ?_, ?_⟩
      · rw [hpath]; rfl
      · exact le_trans (Nat.le_add_right _ _) htok
    · exact ⟨prev, mergeLoop cfg c rest, rfl, rfl, le_rfl⟩

/-- Adjacent chunks in `mergeLoop`'s output never satisfy the merge
condition. -/
theorem mergeLoop_chain (cfg : ChunkingConfig) (cs : List Chunk) (prev : Chunk) :
    List.Chain' (fun a b => mergeCond cfg a b = false) (mergeLoop cfg prev cs) := by
  match cs with
  | [] => rw [mergeLoop]; exact List.chain'_singleton _
  | c :: rest =>
    rw [mergeLoop]
    split
    case isTrue h => exact mergeLoop_chain cfg rest (combineChunks prev c)
    case isFalse h =>
      obtain ⟨hd, tl, heq, hpath, htok⟩ := mergeLoop_head cfg rest c
      rw [heq]
      refine List.chain'_cons.mpr ⟨?_, heq ▸ mergeLoop_chain cfg rest c⟩
      rw [Bool.eq_false_iff]
      intro hcond
      apply h
      simp only [mergeCond, Bool.and_eq_true, beq_iff_eq, decide_eq_true_eq]
        at hcond ⊢
      obtain ⟨⟨h1, h2⟩, h3⟩ := hcond
      exact ⟨⟨h1, le_trans (Nat.add_le_add_left htok _) h2⟩, h3.trans hpath⟩

/-- A list with no adjacent mergeable pair passes through `mergeLoop`
unchanged. -/
theorem mergeLoop_of_chain (cfg : ChunkingConfig) (cs : List Chunk) (prev : Chunk)
    (h : List.Chain' (fun a b => mergeCond cfg a b = false) (prev :: cs)) :
    mergeLoop cfg prev cs = prev :: cs := by
  match cs with
  | [] => rw [mergeLoop]
  | c :: rest =>
    rw [mergeLoop]
    rw [List.chain'_cons] at h
    rw [if_neg (by simp [h.1])]
    rw [mergeLoop_of_chain cfg rest c h.2]

/-- Claim C8, first half: the merger is idempotent. -/
theorem mergeSmallChunks_idem (cfg : ChunkingConfig) (cs : List Chunk) :
    mergeSmallChunks cfg (mergeSmallChunks cfg cs) = mergeSmallChunks cfg cs := by
  match cs with
  | [] => rfl
  | c :: rest =>
    rw [mergeSmallChunks]
    obtain ⟨hd, tl, heq, -, -⟩ := mergeLoop_head cfg rest c
    have hchain := mergeLoop_chain cfg rest c
    rw [heq] at hchain ⊢
    rw [mergeSmallChunks]
    exact mergeLoop_of_chain cfg tl hd hchain

/-- Claim C8, stated as the specification words it. -/
theorem merge_idempotent (cfg : ChunkingConfig) (cs : List Chunk) :
    mergeSmallChunks cfg (mergeSmallChunks cfg cs) = mergeSmallChunks cfg cs ∧
      List.Chain' (fun a b =>
        ¬(a.token_count < cfg.min_tokens ∧
          a.token_count + b.token_count ≤ cfg.max_tokens ∧
          a.section_path = b.section_path)) (mergeSmallChunks cfg cs) := by
  refine ⟨mergeSmallChunks_idem cfg cs, ?_⟩
  have hchain : List.Chain' (fun a b => mergeCond cfg a b = false)
      (mergeSmallChunks cfg cs) := by
    match cs with
    | [] => simp [mergeSmallChunks]
    | c :: rest => exact mergeLoop_chain cfg rest c
  refine List.Chain'.imp ?_ hchain
  intro a b hab hcond
  rw [Bool.eq_false_iff] at hab
  apply hab
  simp only [mergeCond, Bool.and_eq_true, beq_iff_eq, decide_eq_true_eq]
  exact ⟨⟨hcond.1, hcond.2.1⟩, hcond.2.2⟩

/-- Claim C10: the merger neither loses nor reorders words. -/
theorem mergeLoop_words (cfg : ChunkingConfig) (cs : List Chunk) (prev : Chunk) :
    ((mergeLoop cfg prev cs).map fun c => pyWords c.text).flatten
      = pyWords prev.text ++ ((cs.map fun c => pyWords c.text).flatten) := by
  match cs with
  | [] => rw [mergeLoop]; simp
  | c :: rest =>
    rw [mergeLoop]
    split
    · rw [mergeLoop_words cfg rest (combineChunks prev c)]
      show pyWords (prev.text ++ '\n' :: '\n' :: c.text) ++ _ = _
      rw [pyWords_merge_sep]
      simp
    · rw [List.map_cons, List.flatten_cons, mergeLoop_words cfg rest c]
      simp

theorem mergeSmallChunks_words (cfg : ChunkingConfig) (cs : List Chunk) :
    ((mergeSmallChunks cfg cs).map fun c => pyWords c.text).flatten
      = (cs.map fun c => pyWords c.text).flatten := by
  match cs with
  | [] => rfl
  | c :: rest =>
    rw [mergeSmallChunks, mergeLoop_words cfg rest c]
    simp

/-! ## The index assigner (claim C9) -/

/-- Erasing the two assigned fields recovers the input list: the assigner
neither reorders nor otherwise modifies the chunks. -/
theorem assignLoop_erase (allChunks : List Chunk) (rest prior : List Chunk) :
    ((assignLoop allChunks prior rest).map fun c =>
        { c with chunk_index := 0, total_chunks_in_section := 1 })
      = rest.map fun c => { c with chunk_index := 0, total_chunks_in_section := 1 } := by
  match rest with
  | [] => rfl
  | c :: rest1 =>
    rw [assignLoop, List.map_cons, List.map_cons,
      assignLoop_erase allChunks rest1 (prior ++ [c])]

theorem countPath_append (p : Str) (xs ys : List Chunk) :
    countPath p (xs ++ ys) = countPath p xs + countPath p ys := by
  rw [countPath, countPath, countPath, List.filter_append, List.length_append]

/-- The `chunk_index` values inside one path group are consecutive, starting
from the number of same-path chunks already passed. -/
theorem assignLoop_filter_idx (allChunks : List Chunk) (p : Str)
    (rest prior : List Chunk) :
    (((assignLoop allChunks prior rest).filter fun c => c.section_path == p).map
        fun c => c.chunk_index)
      = List.range' (countPath p prior) (countPath p rest) := by
  match rest with
  | [] => rfl
  | c :: rest1 =>
    rw [assignLoop]
    by_cases hp : c.section_path = p
    · subst hp
      have hcp : countPath c.section_path (prior ++ [c])
          = countPath c.section_path prior + 1 := by
        rw [countPath_append]
        simp [countPath, List.filter]
      have hrest : countPath c.section_path (c :: rest1)
          = countPath c.section_path rest1 + 1 := by
        simp [countPath, List.filter_cons, Nat.add_comm]
      rw [List.filter_cons_of_pos (by simp), List.map_cons,
        assignLoop_filter_idx allChunks c.section_path rest1 (prior ++ [c]), hcp,
        hrest, List.range'_succ]
    · have hb : (c.section_path == p) = false := by simpa using hp
      have hcp : countPath p (prior ++ [c]) = countPath p prior := by
        rw [countPath_append]
        simp [countPath, List.filter, hb]
      have hrest : countPath p (c :: rest1) = countPath p rest1 := by
        simp [countPath, List.filter_cons, hb]
      rw [List.filter_cons_of_neg (by simpa using hp),
        assignLoop_filter_idx allChunks p rest1 (prior ++ [c]), hcp, hrest]

/-- Every output chunk's group-size field counts the chunks sharing its
path. -/
theorem assignLoop_total (allChunks : List Chunk) (rest prior : List Chunk) :
    ∀ c ∈ assignLoop allChunks prior rest,
      c.total_chunks_in_section = countPath c.section_path allChunks := by
  match rest with
  | [] => simp [assignLoop]
  | c0 :: rest1 =>
    rw [assignLoop]
    intro c hc
    rcases List.mem_cons.mp hc with hc | hc
    · subst hc; rfl
    · exact assignLoop_total allChunks rest1 (prior ++ [c0]) c hc

theorem countPath_assignIndices (cs : List Chunk) (p : Str) :
    countPath p (assignIndices cs) = countPath p cs := by
  have h := congrArg List.length (assignLoop_filter_idx cs p cs [])
  simpa [countPath, assignIndices] using h

/-! ## The size ceiling (claim C1) -/

theorem slidingLoop_bound (cfg : ChunkingConfig) (bk : BookMeta) (path : Str)
    (stype : String) (off tlen : Nat) (words : List Str)
    (htm : cfg.target_tokens ≤ cfg.max_tokens) (pos : Nat) :
    ∀ c ∈ slidingLoop cfg bk path stype off tlen words pos,
      c.token_count ≤ cfg.max_tokens := by
  rw [slidingLoop]
  split
  case isTrue hp =>
    dsimp only
    have hlen : ((words.drop pos).take
        (min (pos + cfg.target_tokens) words.length - pos)).length
          ≤ cfg.max_tokens := by
      have h1 := List.length_take_le
        (min (pos + cfg.target_tokens) words.length - pos) (words.drop pos)
      have h2 : min (pos + cfg.target_tokens) words.length - pos
          ≤ cfg.target_tokens := by omega
      omega
    split
    · intro c hc
      rw [List.mem_singleton] at hc
      subst hc
      exact hlen
    · intro c hc
      rcases List.mem_cons.mp hc with hc | hc
      · subst hc; exact hlen
      · exact slidingLoop_bound cfg bk path stype off tlen words htm _ c hc
  · simp
termination_by words.length - pos
decreasing_by
  have h1 : 1 ≤ max (cfg.target_tokens - cfg.overlap_tokens) 1 :=
    Nat.le_max_right _ _
  omega

theorem slidingWindowChunks_bound (cfg : ChunkingConfig) (bk : BookMeta)
    (text path : Str) (stype : String) (off : Nat)
    (htm : cfg.target_tokens ≤ cfg.max_tokens) :
    ∀ c ∈ slidingWindowChunks cfg bk text path stype off,
      c.token_count ≤ cfg.max_tokens := by
  rw [slidingWindowChunks]
  split
  · simp
  · split
    case isTrue hle =>
      intro c hc
      rw [List.mem_singleton] at hc
      subst hc
      exact hle
    · exact slidingLoop_bound cfg bk path stype off text.length (pyWords text)
        htm 0

mutual

theorem chunkSections_bound (cfg : ChunkingConfig) (bk : BookMeta)
    (ss : List Section) (pp : Str) (htm : cfg.target_tokens ≤ cfg.max_tokens) :
    ∀ c ∈ chunkSections cfg bk ss pp, c.token_count ≤ cfg.max_tokens := by
  match ss with
  | [] => simp [chunkSections]
  | s :: rest =>
    rw [chunkSections]
    intro c hc
    rcases List.mem_append.mp hc with hc | hc
    · exact chunkOneSection_bound cfg bk s pp htm c hc
    · exact chunkSections_bound cfg bk rest pp htm c hc

theorem chunkOneSection_bound (cfg : ChunkingConfig) (bk : BookMeta)
    (s : Section) (pp : Str) (htm : cfg.target_tokens ≤ cfg.max_tokens) :
    ∀ c ∈ chunkOneSection cfg bk s pp, c.token_count ≤ cfg.max_tokens := by
  match s with
  | .mk stype title stext cstart cend [] lv =>
    rw [chunkOneSection.eq_def]
    dsimp only
    split
    case isTrue hle =>
      split
      · intro c hc
        rw [List.mem_singleton] at hc
        subst hc
        exact hle
      · simp
    · exact slidingWindowChunks_bound cfg bk stext _ stype cstart htm
  | .mk stype title stext cstart cend (sub0 :: subRest) lv =>
    rw [chunkOneSection.eq_def]
    dsimp only
    exact chunkSections_bound cfg bk (sub0 :: subRest) _ htm

end

theorem paraLoop_bound (cfg : ChunkingConfig) (bk : BookMeta) (text path : Str)
    (off : Nat) (htm : cfg.target_tokens ≤ cfg.max_tokens) (paras : List Str)
    (curPos : Nat) :
    ∀ c ∈ paraLoop cfg bk text path off paras curPos,
      c.token_count ≤ cfg.max_tokens := by
  match paras with
  | [] => simp [paraLoop]
  | para :: rest =>
    rw [paraLoop]
    split
    · exact paraLoop_bound cfg bk text path off htm rest _
    · intro c hc
      rcases List.mem_append.mp hc with hc | hc
      · revert hc
        split
        · intro hc
          exact slidingWindowChunks_bound cfg bk _ path "paragraph" _ htm c hc
        case isFalse hgt =>
          intro hc
          rw [List.mem_singleton] at hc
          subst hc
          exact Nat.le_of_not_lt hgt
      · exact paraLoop_bound cfg bk text path off htm rest _ c hc

theorem mergeLoop_bound (cfg : ChunkingConfig) (cs : List Chunk) (prev : Chunk)
    (hp : prev.token_count ≤ cfg.max_tokens)
    (hcs : ∀ c ∈ cs, c.token_count ≤ cfg.max_tokens) :
    ∀ c ∈ mergeLoop cfg prev cs, c.token_count ≤ cfg.max_tokens := by
  match cs with
  | [] =>
    rw [mergeLoop]
    intro c hc
    rw [List.mem_singleton] at hc
    subst hc
    exact hp
  | c0 :: rest =>
    rw [mergeLoop]
    have hrest : ∀ c ∈ rest, c.token_count ≤ cfg.max_tokens := fun c hc =>
      hcs c (List.mem_cons_of_mem _ hc)
    split
    case isTrue hcond =>
      have hsum : prev.token_count + c0.token_count ≤ cfg.max_tokens := by
        simp only [mergeCond, Bool.and_eq_true, decide_eq_true_eq] at hcond
        exact hcond.1.2
      exact mergeLoop_bound cfg rest _ hsum hrest
    · intro c hc
      rcases List.mem_cons.mp hc with hc | hc
      · subst hc; exact hp
      · exact mergeLoop_bound cfg rest c0 (hcs c0 (by simp)) hrest c hc

theorem mergeSmallChunks_bound (cfg : ChunkingConfig) (cs : List Chunk)
    (hcs : ∀ c ∈ cs, c.token_count ≤ cfg.max_tokens) :
    ∀ c ∈ mergeSmallChunks cfg cs, c.token_count ≤ cfg.max_tokens := by
  match cs with
  | [] => simp [mergeSmallChunks]
  | c0 :: rest =>
    rw [mergeSmallChunks]
    exact mergeLoop_bound cfg rest c0 (hcs c0 (by simp))
      (fun c hc => hcs c (List.mem_cons_of_mem _ hc))

theorem assignLoop_bound (cfg : ChunkingConfig) (allChunks : List Chunk)
    (rest prior : List Chunk)
    (hrest : ∀ c ∈ rest, c.token_count ≤ cfg.max_tokens) :
    ∀ c ∈ assignLoop allChunks prior rest, c.token_count ≤ cfg.max_tokens := by
  match rest with
  | [] => simp [assignLoop]
  | c0 :: rest1 =>
    rw [assignLoop]
    intro c hc
    rcases List.mem_cons.mp hc with hc | hc
    · subst hc
      exact hrest c0 (by simp)
    · exact assignLoop_bound cfg allChunks rest1 _
        (fun c hc => hrest c (List.mem_cons_of_mem _ hc)) c hc

theorem assignIndices_bound (cfg : ChunkingConfig) (cs : List Chunk)
    (hcs : ∀ c ∈ cs, c.token_count ≤ cfg.max_tokens) :
    ∀ c ∈ assignIndices cs, c.token_count ≤ cfg.max_tokens :=
  assignLoop_bound cfg cs cs [] hcs

/-! ## The section-tree level invariant (claim C6) -/

theorem sizeOf_subsections_le (s : Section) :
    sizeOf s.subsections ≤ sizeOf s := by
  match s with
  | .mk a b c d e subs lv =>
    simp only [Section.subsections, Section.mk.sizeOf_spec]
    omega

/-- Every subsection's level is strictly greater than its parent's,
recursively. -/
def levelsOK (s : Section) : Prop :=
  ∀ t ∈ s.subsections, s.level < t.level ∧ levelsOK t
termination_by sizeOf s
decreasing_by
  have h1 := List.sizeOf_lt_of_mem ‹t ∈ s.subsections›
  have h2 := sizeOf_subsections_le s
  omega

theorem levelsOK_iff (s : Section) :
    levelsOK s ↔ ∀ t ∈ s.subsections, s.level < t.level ∧ levelsOK t := by
  rw [levelsOK]

theorem levelsOK_mk (st : String) (ti tx : Str) (cs ce : Nat)
    (subs : List Section) (lv : Nat) :
    levelsOK (.mk st ti tx cs ce subs lv)
      ↔ ∀ s ∈ subs, lv < s.level ∧ levelsOK s := by
  rw [levelsOK_iff]
  rfl

/-- The open-section invariant carried by a stack frame: its accumulated
children already satisfy the level discipline. -/
def frameOK (f : Frame) : Prop :=
  ∀ s ∈ f.revChildren, f.level < s.level ∧ levelsOK s

/-- The stack invariant of `_build_section_tree`: levels strictly decrease
from the top (list head) down, and every open frame is internally sound. -/
def stackOK (stack : List Frame) : Prop :=
  List.Chain' (fun f g => g.level < f.level) stack ∧ ∀ f ∈ stack, frameOK f

theorem finalize_levelsOK {f : Frame} (hf : frameOK f) : levelsOK f.finalize := by
  rw [Frame.finalize, levelsOK_mk]
  intro s hs
  rw [List.mem_reverse] at hs
  exact hf s hs

theorem finalize_level (f : Frame) : f.finalize.level = f.level := rfl

theorem chain'_replace_head {g g2 : Frame} (hlv : g2.level = g.level)
    (rest2 : List Frame)
    (h : List.Chain' (fun f g => g.level < f.level) (g :: rest2)) :
    List.Chain' (fun f g => g.level < f.level) (g2 :: rest2) := by
  rw [List.chain'_cons'] at h ⊢
  refine ⟨fun b hb => ?_, h.2⟩
  rw [hlv]
  exact h.1 b hb

theorem popGE_inv (level : Nat) (stack : List Frame) (revRoots : List Section)
    (hs : stackOK stack) (hr : ∀ s ∈ revRoots, levelsOK s) :
    stackOK (popGE level stack revRoots).1 ∧
      (∀ s ∈ (popGE level stack revRoots).2, levelsOK s) ∧
      (∀ f ∈ (popGE level stack revRoots).1.head?, f.level < level) := by
  match stack with
  | [] =>
    rw [popGE.eq_def]
    exact ⟨⟨List.chain'_nil, by simp⟩, hr, by simp⟩
  | f :: rest =>
    rw [popGE.eq_def]
    dsimp only
    split
    case isTrue hge =>
      have hfOK : frameOK f := hs.2 f (by simp)
      match rest with
      | [] =>
        refine popGE_inv level [] (f.finalize :: revRoots)
          ⟨List.chain'_nil, by simp⟩ ?_
        intro s hsm
        rcases List.mem_cons.mp hsm with hsm | hsm
        · subst hsm; exact finalize_levelsOK hfOK
        · exact hr s hsm
      | g :: rest2 =>
        have hadj : g.level < f.level := (List.chain'_cons.mp hs.1).1
        have hgOK : frameOK g := hs.2 g (by simp)
        refine popGE_inv level
          ({ g with revChildren := f.finalize :: g.revChildren } :: rest2)
          revRoots ⟨?_, ?_⟩ hr
        · exact @chain'_replace_head g
            { g with revChildren := f.finalize :: g.revChildren } rfl rest2
            (List.chain'_cons.mp hs.1).2
        · intro fr hfr
          rcases List.mem_cons.mp hfr with hfr | hfr
          · subst hfr
            intro s hsm
            rcases List.mem_cons.mp hsm with hsm | hsm
            · subst hsm
              exact ⟨hadj, finalize_levelsOK hfOK⟩
            · exact hgOK s hsm
          · exact hs.2 fr (List.mem_cons_of_mem _ (List.mem_cons_of_mem _ hfr))
    case isFalse hlt =>
      refine ⟨hs, hr, ?_⟩
      intro fr hfr
      simp only [List.head?_cons, Option.mem_def, Option.some.injEq] at hfr
      subst hfr
      omega
termination_by stack.length
decreasing_by all_goals simp

theorem flushAll_inv (stack : List Frame) (revRoots : List Section)
    (hs : stackOK stack) (hr : ∀ s ∈ revRoots, levelsOK s) :
    ∀ s ∈ flushAll stack revRoots, levelsOK s := by
  match stack with
  | [] =>
    rw [flushAll.eq_def]
    exact hr
  | f :: rest =>
    rw [flushAll.eq_def]
    dsimp only
    have hfOK : frameOK f := hs.2 f (by simp)
    match rest with
    | [] =>
      refine flushAll_inv [] (f.finalize :: revRoots)
        ⟨List.chain'_nil, by simp⟩ ?_
      intro s hsm
      rcases List.mem_cons.mp hsm with hsm | hsm
      · subst hsm; exact finalize_levelsOK hfOK
      · exact hr s hsm
    | g :: rest2 =>
      have hadj : g.level < f.level := (List.chain'_cons.mp hs.1).1
      have hgOK : frameOK g := hs.2 g (by simp)
      refine flushAll_inv
        ({ g with revChildren := f.finalize :: g.revChildren } :: rest2)
        revRoots ⟨?_, ?_⟩ hr
      · exact @chain'_replace_head g
          { g with revChildren := f.finalize :: g.revChildren } rfl rest2
          (List.chain'_cons.mp hs.1).2
      · intro fr hfr
        rcases List.mem_cons.mp hfr with hfr | hfr
        · subst hfr
          intro s hsm
          rcases List.mem_cons.mp hsm with hsm | hsm
          · subst hsm
            exact ⟨hadj, finalize_levelsOK hfOK⟩
          · exact hgOK s hsm
        · exact hs.2 fr (List.mem_cons_of_mem _ (List.mem_cons_of_mem _ hfr))
termination_by stack.length
decreasing_by all_goals simp

theorem buildLoop_inv (text : Str) (ms : List Marker) (stack : List Frame)
    (revRoots : List Section) (hs : stackOK stack)
    (hr : ∀ s ∈ revRoots, levelsOK s) :
    ∀ s ∈ buildLoop text ms stack revRoots, levelsOK s := by
  match ms with
  | [] =>
    rw [buildLoop.eq_def]
    intro s hsm
    rw [List.mem_reverse] at hsm
    exact flushAll_inv stack revRoots hs hr s hsm
  | mk :: rest =>
    rw [buildLoop.eq_def]
    dsimp only
    obtain ⟨hs', hr', hhead⟩ := popGE_inv mk.level stack revRoots hs hr
    refine buildLoop_inv text rest _ _ ⟨?_, ?_⟩ hr'
    · exact List.chain'_cons'.mpr ⟨fun g hg => hhead g hg, hs'.1⟩
    · intro fr hfr
      rcases List.mem_cons.mp hfr with hfr | hfr
      · subst hfr
        intro s hsm
        simp at hsm
      · exact hs'.2 fr hfr

theorem buildSectionTree_levelsOK (markers : List Marker) (text : Str) :
    ∀ s ∈ buildSectionTree markers text, levelsOK s :=
  buildLoop_inv text markers [] [] ⟨List.chain'_nil, by simp⟩ (by simp)

/-! ## The paragraph fallback rule (claim C4) -/

/-- The paragraph-locating scan of `_chunk_by_paragraphs` separated from the
emission rule: blank paragraphs advance the cursor, non-blank paragraphs are
located with `text.find(para, current_pos)` (cursor fallback on failure). -/
def locateParas (text : Str) : List Str → Nat → List (Str × Nat × Nat)
  | [], _ => []
  | para :: rest, currentPos =>
    if pyStrip para = [] then
      locateParas text rest (currentPos + para.length + 1)
    else
      let paraStart :=
        match strFindFrom text para currentPos with
        | some p => p
        | none => currentPos
      (para, paraStart, paraStart + para.length)
        :: locateParas text rest (paraStart + para.length)

/-- The paragraph chunk literal of the fallback path. -/
def mkParaChunk (bk : BookMeta) (ps path : Str) (cs ce : Nat) : Chunk :=
  { text := ps, book_id := bk.book_id, book_title := bk.book_title,
    book_author := bk.book_author, section_path := path,
    section_type := "paragraph", language := bk.language, char_start := cs,
    char_end := ce, token_count := estimate_tokens ps }

/-- The fallback path as claim C4 words it, with the claim's boundary: a
paragraph whose token count is **at or above** `max_tokens` is delegated to
the sliding-window splitter with the paragraph's offset as base; one
strictly under becomes exactly one paragraph chunk. -/
def paraChunksClaim (cfg : ChunkingConfig) (bk : BookMeta) (text path : Str)
    (off : Nat) : List Chunk :=
  (locateParas text (splitParas text) 0).flatMap fun pr =>
    let ps := pyStrip pr.1
    if cfg.max_tokens ≤ estimate_tokens ps then
      slidingWindowChunks cfg bk ps path "paragraph" (off + pr.2.1)
    else [mkParaChunk bk ps path (off + pr.2.1) (off + pr.2.2)]

/-- The fallback path with the boundary the code actually uses: delegated
only **strictly above** `max_tokens`; at or below becomes one chunk. -/
def paraChunksAmended (cfg : ChunkingConfig) (bk : BookMeta) (text path : Str)
    (off : Nat) : List Chunk :=
  (locateParas text (splitParas text) 0).flatMap fun pr =>
    let ps := pyStrip pr.1
    if cfg.max_tokens < estimate_tokens ps then
      slidingWindowChunks cfg bk ps path "paragraph" (off + pr.2.1)
    else [mkParaChunk bk ps path (off + pr.2.1) (off + pr.2.2)]

theorem paraLoop_eq_locate (cfg : ChunkingConfig) (bk : BookMeta)
    (text path : Str) (off : Nat) (paras : List Str) (curPos : Nat) :
    paraLoop cfg bk text path off paras curPos
      = (locateParas text paras curPos).flatMap fun pr =>
          let ps := pyStrip pr.1
          if cfg.max_tokens < estimate_tokens ps then
            slidingWindowChunks cfg bk ps path "paragraph" (off + pr.2.1)
          else [mkParaChunk bk ps path (off + pr.2.1) (off + pr.2.2)] := by
  match paras with
  | [] => rw [paraLoop, locateParas]; rfl
  | para :: rest =>
    rw [paraLoop, locateParas]
    split
    · exact paraLoop_eq_locate cfg bk text path off rest _
    · rw [List.flatMap_cons]
      dsimp only [mkParaChunk]
      rw [paraLoop_eq_locate cfg bk text path off rest _]
      rfl

/-! ## Line anchoring of markers (claim C5) -/

/-- The marker position is at the start of a line of `text`. -/
def lineStartAt (text : Str) (pos : Nat) : Prop :=
  pos = 0 ∨ text.get? (pos - 1) = some '\n'

theorem scanAux_line_start (m : Bool → Str → Option Nat)
    (hm : ∀ l, m false l = none) (text : Str) :
    ∀ (l : Str) (pos : Nat) (ls : Bool), text.drop pos = l →
      (ls = true → lineStartAt text pos) →
      ∀ pr ∈ scanAux m l pos ls, lineStartAt text pr.1 := by
  intro l
  match l with
  | [] => intro pos ls _ _ pr hpr; rw [scanAux] at hpr; simp at hpr
  | c :: cs =>
    intro pos ls hdrop hls pr hpr
    have hget : text.get? pos = some c := by
      have h0 : (text.drop pos).get? 0 = some c := by rw [hdrop]; rfl
      rwa [List.get?_drop, Nat.add_zero] at h0
    have hdrop1 : text.drop (pos + 1) = cs := by
      have h1 := congrArg (List.drop 1) hdrop
      rw [List.drop_drop] at h1
      simpa using h1
    have hnext : ((c = '\n') : Bool) = true → lineStartAt text (pos + 1) := by
      intro hc
      right
      rw [Nat.add_sub_cancel, hget]
      rw [decide_eq_true_eq] at hc
      rw [hc]
    rw [scanAux] at hpr
    revert hpr
    split
    case h_1 len hlen =>
      split
      · intro hpr
        exact scanAux_line_start m hm text cs (pos + 1) _ hdrop1 hnext pr hpr
      case isFalse hlen0 =>
        intro hpr
        rcases List.mem_cons.mp hpr with hpr | hpr
        · subst hpr
          rcases Bool.eq_false_or_eq_true ls with hl | hl
          · exact hls hl
          · rw [hl, hm (c :: cs)] at hlen
            exact absurd hlen (by simp)
        · refine scanAux_line_start m hm text ((c :: cs).drop len) (pos + len)
            _ ?_ ?_ pr hpr
          · rw [← hdrop, List.drop_drop, Nat.add_comm]
          · intro hbeq
            right
            rw [beq_iff_eq] at hbeq
            have hlast : (text.drop pos).get? (len - 1) = some '\n' := by
              rw [hdrop]; exact hbeq
            rw [List.get?_drop] at hlast
            have hlen1 : 1 ≤ len := Nat.one_le_iff_ne_zero.mpr hlen0
            have heq2 : pos + len - 1 = pos + (len - 1) := by omega
            rw [heq2, hlast]
    case h_2 =>
      intro hpr
      exact scanAux_line_start m hm text cs (pos + 1) _ hdrop1 hnext pr hpr
termination_by l => l.length
decreasing_by
  all_goals simp only [List.length_drop, List.length_cons]
  all_goals omega

theorem mem_insertByPos (m x : Marker) (l : List Marker) :
    x ∈ insertByPos m l ↔ x ∈ m :: l := by
  induction l with
  | nil => rw [insertByPos]
  | cons y ys ih =>
    rw [insertByPos]
    split
    · rw [List.mem_cons, ih]
      simp only [List.mem_cons]
      tauto
    · simp only [List.mem_cons]

theorem mem_sortByPos (x : Marker) (l : List Marker) :
    x ∈ sortByPos l ↔ x ∈ l := by
  induction l with
  | nil => rw [sortByPos]
  | cons y ys ih =>
    rw [sortByPos, mem_insertByPos, List.mem_cons, List.mem_cons, ih]

/-! ## Word coverage (claim C2) -/

theorem pyWords_allws_prefix (v b : Str) (hv : ∀ c ∈ v, isPySpace c = true) :
    pyWords (v ++ b) = pyWords b := by
  induction v with
  | nil => simp
  | cons c v1 ih =>
    rw [List.cons_append, pyWords_cons_ws (hv c (by simp))]
    exact ih fun d hd => hv d (List.mem_cons_of_mem _ hd)

/-- A non-empty all-whitespace separator splits the word list. -/
theorem pyWords_sandwich (a v b : Str) (hne : v ≠ [])
    (hv : ∀ c ∈ v, isPySpace c = true) :
    pyWords (a ++ v ++ b) = pyWords a ++ pyWords b := by
  match v with
  | [] => exact absurd rfl hne
  | c :: v1 =>
    rw [List.append_assoc, List.cons_append, pyWords_append_ws (hv c (by simp)),
      pyWords_allws_prefix v1 b fun d hd => hv d (List.mem_cons_of_mem _ hd)]

theorem lastNl_lt_length {l : Str} {j : Nat} (h : lastNl l = some j) :
    j < l.length := by
  induction l generalizing j with
  | nil => simp [lastNl] at h
  | cons c cs ih =>
    rw [lastNl] at h
    revert h
    split
    case h_1 j2 hj2 =>
      intro h
      rw [Option.some.injEq] at h
      subst h
      have := ih hj2
      simp only [List.length_cons]
      omega
    · split
      · intro h
        rw [Option.some.injEq] at h
        subst h
        simp
      · intro h
        exact absurd h (by simp)

theorem lastNl_nl {l : Str} {j : Nat} (h : lastNl l = some j) :
    l.get? j = some '\n' := by
  induction l generalizing j with
  | nil => simp [lastNl] at h
  | cons c cs ih =>
    rw [lastNl] at h
    revert h
    split
    case h_1 j2 hj2 =>
      intro h
      rw [Option.some.injEq] at h
      subst h
      exact ih hj2
    case h_2 hnone =>
      split
      case isTrue hc =>
        intro h
        rw [Option.some.injEq] at h
        subst h
        rw [hc]
        rfl
      · intro h
        exact absurd h (by simp)

/-- The matched blank-line separator consists of whitespace only. -/
theorem blankMatchLen_ws {l : Str} {len : Nat} (h : blankMatchLen l = some len) :
    ∀ c ∈ l.take len, isPySpace c = true := by
  match l with
  | [] => simp [blankMatchLen] at h
  | c0 :: rest =>
    rw [blankMatchLen] at h
    split at h
    case isTrue hc0 =>
      subst hc0
      rw [Option.map_eq_some'] at h
      obtain ⟨j, hj, hlen⟩ := h
      subst hlen
      have hjlt := lastNl_lt_length hj
      intro c hc
      rw [List.take_succ_cons] at hc
      rcases List.mem_cons.mp hc with hc | hc
      · subst hc
        rfl
      · have hpf : rest.take (j + 1) = (rest.takeWhile isPySpace).take (j + 1) := by
          conv_lhs => rw [← List.takeWhile_append_dropWhile isPySpace rest]
          rw [List.take_append_of_le_length (by omega)]
        rw [hpf] at hc
        exact List.mem_takeWhile_imp (List.take_subset _ _ hc)
    · exact absurd h (by simp)

/-- Splitting on blank-line separators preserves the word sequence. -/
theorem splitParasAux_words (acc l : Str) :
    pyWords (acc.reverse ++ l) = ((splitParasAux acc l).map pyWords).flatten := by
  match l with
  | [] =>
    rw [splitParasAux]
    simp
  | c :: cs =>
    rw [splitParasAux]
    split
    case h_1 len hlen =>
      have hws := blankMatchLen_ws hlen
      have hlen2 := blankMatchLen_ge_two hlen
      have hne : (c :: cs).take len ≠ [] := by
        have : len ≠ 0 := by omega
        simp [List.take_eq_nil_iff, this]
      calc pyWords (acc.reverse ++ (c :: cs))
          = pyWords (acc.reverse ++ (c :: cs).take len ++ (c :: cs).drop len) := by
            rw [List.append_assoc, List.take_append_drop]
        _ = pyWords acc.reverse ++ pyWords ((c :: cs).drop len) :=
            pyWords_sandwich _ _ _ hne hws
        _ = pyWords acc.reverse
              ++ ((splitParasAux [] ((c :: cs).drop len)).map pyWords).flatten := by
            have h2 := splitParasAux_words [] ((c :: cs).drop len)
            simpa using h2
        _ = _ := by simp
    case h_2 =>
      have h2 := splitParasAux_words (c :: acc) cs
      rw [List.reverse_cons, List.append_assoc] at h2
      simpa using h2
termination_by l.length
decreasing_by
  all_goals simp only [List.length_drop, List.length_cons]
  all_goals omega

theorem splitParas_words (text : Str) :
    pyWords text = ((splitParas text).map pyWords).flatten := by
  have h := splitParasAux_words [] text
  rw [splitParas]
  simpa using h

theorem drop_subset_drop {α : Type} (l : List α) {m n : Nat} (h : m ≤ n) :
    l.drop n ⊆ l.drop m := by
  intro x hx
  have : l.drop n = (l.drop m).drop (n - m) := by
    rw [List.drop_drop]
    congr 1
    omega
  rw [this] at hx
  exact List.drop_subset _ _ hx

/-- Every word at or after the loop's start position reaches some window. -/
theorem slidingLoop_covers (cfg : ChunkingConfig) (bk : BookMeta) (path : Str)
    (stype : String) (off tlen : Nat) (words : List Str)
    (hw : ∀ w ∈ words, w ≠ [] ∧ ∀ ch ∈ w, isPySpace ch = false)
    (ht : 1 ≤ cfg.target_tokens) (pos : Nat) :
    ∀ w ∈ words.drop pos,
      ∃ c ∈ slidingLoop cfg bk path stype off tlen words pos,
        w ∈ pyWords c.text := by
  rw [slidingLoop]
  split
  case isTrue hp =>
    dsimp only
    have hcw : ∀ v ∈ (words.drop pos).take
        (min (pos + cfg.target_tokens) words.length - pos),
        v ≠ [] ∧ ∀ ch ∈ v, isPySpace ch = false := fun v hv =>
      hw v (List.drop_subset _ _ (List.take_subset _ _ hv))
    have hjoin : pyWords (joinSep ((words.drop pos).take
        (min (pos + cfg.target_tokens) words.length - pos)))
        = (words.drop pos).take
            (min (pos + cfg.target_tokens) words.length - pos) :=
      pyWords_joinSep _ hcw
    split
    case isTrue hend =>
      intro w hwmem
      refine ⟨_, List.mem_singleton.mpr rfl, ?_⟩
      show w ∈ pyWords (joinSep _)
      rw [hjoin]
      have htake : (words.drop pos).take
          (min (pos + cfg.target_tokens) words.length - pos) = words.drop pos := by
        apply List.take_of_length_le
        simp only [List.length_drop]
        omega
      rw [htake]
      exact hwmem
    case isFalse hend =>
      intro w hwmem
      have hee : min (pos + cfg.target_tokens) words.length
          = pos + cfg.target_tokens := by omega
      have hsplit := List.take_append_drop
        (min (pos + cfg.target_tokens) words.length - pos) (words.drop pos)
      rw [← hsplit] at hwmem
      rcases List.mem_append.mp hwmem with h1 | h1
      · refine ⟨_, List.mem_cons_self _ _, ?_⟩
        show w ∈ pyWords (joinSep _)
        rw [hjoin]
        exact h1
      · have hde : (words.drop pos).drop
            (min (pos + cfg.target_tokens) words.length - pos)
            = words.drop (min (pos + cfg.target_tokens) words.length) := by
          rw [List.drop_drop]
          congr 1
          omega
        rw [hde] at h1
        have hstep : pos + max (cfg.target_tokens - cfg.overlap_tokens) 1
            ≤ min (pos + cfg.target_tokens) words.length := by
          have hm : max (cfg.target_tokens - cfg.overlap_tokens) 1
              ≤ cfg.target_tokens := by
            apply Nat.max_le.mpr
            omega
          omega
        have h2 := drop_subset_drop words hstep h1
        obtain ⟨c, hc, hcw2⟩ := slidingLoop_covers cfg bk path stype off tlen
          words hw ht (pos + max (cfg.target_tokens - cfg.overlap_tokens) 1) w h2
        exact ⟨c, List.mem_cons_of_mem _ hc, hcw2⟩
  case isFalse hp =>
    intro w hwmem
    rw [List.drop_eq_nil_of_le (by omega)] at hwmem
    exact absurd hwmem (List.not_mem_nil w)
termination_by words.length - pos
decreasing_by
  have h1 : 1 ≤ max (cfg.target_tokens - cfg.overlap_tokens) 1 :=
    Nat.le_max_right _ _
  omega

/-- Every word of the splitter's input reaches some emitted chunk. -/
theorem slidingWindowChunks_covers (cfg : ChunkingConfig) (bk : BookMeta)
    (text path : Str) (stype : String) (off : Nat)
    (ht : 1 ≤ cfg.target_tokens) :
    ∀ w ∈ pyWords text,
      ∃ c ∈ slidingWindowChunks cfg bk text path stype off,
        w ∈ pyWords c.text := by
  rw [slidingWindowChunks]
  split
  case isTrue hnil =>
    intro w hwmem
    rw [hnil] at hwmem
    exact absurd hwmem (List.not_mem_nil w)
  case isFalse hnil =>
    split
    · intro w hwmem
      refine ⟨_, List.mem_singleton.mpr rfl, ?_⟩
      show w ∈ pyWords (pyStrip text)
      rw [pyWords_pyStrip]
      exact hwmem
    · intro w hwmem
      exact slidingLoop_covers cfg bk path stype off text.length (pyWords text)
        (pyWords_sound text) ht 0 w hwmem

mutual

/-- The texts of the leaf sections, in traversal order — the units the
assembler actually chunks. -/
def sectionLeafTexts : Section → List Str
  | .mk _ _ tx _ _ [] _ => [tx]
  | .mk _ _ _ _ _ (sub0 :: subRest) _ => leafTexts (sub0 :: subRest)

def leafTexts : List Section → List Str
  | [] => []
  | s :: rest => sectionLeafTexts s ++ leafTexts rest

end

mutual

theorem chunkSections_covers (cfg : ChunkingConfig) (bk : BookMeta)
    (ht : 1 ≤ cfg.target_tokens) (ss : List Section) (pp : Str) :
    ∀ t ∈ leafTexts ss, ∀ w ∈ pyWords t,
      ∃ c ∈ chunkSections cfg bk ss pp, w ∈ pyWords c.text := by
  match ss with
  | [] => simp [leafTexts]
  | s :: rest =>
    rw [leafTexts, chunkSections]
    intro t ht2 w hwm
    rcases List.mem_append.mp ht2 with h1 | h1
    · obtain ⟨c, hc, hcw⟩ := chunkOneSection_covers cfg bk ht s pp t h1 w hwm
      exact ⟨c, List.mem_append_left _ hc, hcw⟩
    · obtain ⟨c, hc, hcw⟩ := chunkSections_covers cfg bk ht rest pp t h1 w hwm
      exact ⟨c, List.mem_append_right _ hc, hcw⟩

theorem chunkOneSection_covers (cfg : ChunkingConfig) (bk : BookMeta)
    (ht : 1 ≤ cfg.target_tokens) (s : Section) (pp : Str) :
    ∀ t ∈ sectionLeafTexts s, ∀ w ∈ pyWords t,
      ∃ c ∈ chunkOneSection cfg bk s pp, w ∈ pyWords c.text := by
  match s with
  | .mk stype title stext cstart cend [] lv =>
    rw [sectionLeafTexts, chunkOneSection.eq_def]
    dsimp only
    intro t ht2 w hwm
    rw [List.mem_singleton] at ht2
    subst ht2
    split
    · split
      · exact ⟨_, List.mem_singleton.mpr rfl, hwm⟩
      case isFalse hstrip =>
        rw [Decidable.not_not] at hstrip
        rw [pyWords_of_pyStrip_nil hstrip] at hwm
        exact absurd hwm (List.not_mem_nil w)
    · exact slidingWindowChunks_covers cfg bk t _ stype cstart ht w hwm
  | .mk stype title stext cstart cend (sub0 :: subRest) lv =>
    rw [sectionLeafTexts, chunkOneSection.eq_def]
    dsimp only
    exact chunkSections_covers cfg bk ht (sub0 :: subRest) _

end

/-- Every word of every non-blank paragraph reaches some chunk of the
fallback loop. -/
theorem paraLoop_covers (cfg : ChunkingConfig) (bk : BookMeta)
    (text path : Str) (off : Nat) (ht : 1 ≤ cfg.target_tokens)
    (paras : List Str) (curPos : Nat) :
    ∀ para ∈ paras, ∀ w ∈ pyWords para,
      ∃ c ∈ paraLoop cfg bk text path off paras curPos,
        w ∈ pyWords c.text := by
  match paras with
  | [] => simp
  | para :: rest =>
    rw [paraLoop]
    intro p hp w hwm
    rcases List.mem_cons.mp hp with hp | hp
    · subst hp
      split
      case isTrue hstrip =>
        rw [pyWords_of_pyStrip_nil hstrip] at hwm
        exact absurd hwm (List.not_mem_nil w)
      case isFalse hstrip =>
        dsimp only
        have hwm2 : w ∈ pyWords (pyStrip p) := by
          rw [pyWords_pyStrip]
          exact hwm
        by_cases hbig : cfg.max_tokens < estimate_tokens (pyStrip p)
        · rw [if_pos hbig]
          obtain ⟨c, hc, hcw⟩ := slidingWindowChunks_covers cfg bk (pyStrip p)
            path "paragraph" _ ht w hwm2
          exact ⟨c, List.mem_append_left _ hc, hcw⟩
        · rw [if_neg hbig]
          exact ⟨_, List.mem_append_left _ (List.mem_singleton.mpr rfl), hwm2⟩
    · split
      · exact paraLoop_covers cfg bk text path off ht rest _ p hp w hwm
      · obtain ⟨c, hc, hcw⟩ := paraLoop_covers cfg bk text path off ht rest _
          p hp w hwm
        exact ⟨c, List.mem_append_right _ hc, hcw⟩

/-- The merger keeps every word reachable. -/
theorem mergeSmallChunks_covers (cfg : ChunkingConfig) (cs : List Chunk)
    (w : Str) (h : ∃ c ∈ cs, w ∈ pyWords c.text) :
    ∃ c2 ∈ mergeSmallChunks cfg cs, w ∈ pyWords c2.text := by
  obtain ⟨c, hc, hcw⟩ := h
  have hflat : w ∈ ((cs.map fun c => pyWords c.text).flatten) :=
    List.mem_flatten.mpr ⟨pyWords c.text, List.mem_map_of_mem _ hc, hcw⟩
  rw [← mergeSmallChunks_words cfg cs] at hflat
  obtain ⟨l, hl, hwl⟩ := List.mem_flatten.mp hflat
  obtain ⟨c2, hc2, hleq⟩ := List.mem_map.mp hl
  exact ⟨c2, hc2, hleq ▸ hwl⟩

theorem assignLoop_texts (allChunks : List Chunk) (rest prior : List Chunk) :
    (assignLoop allChunks prior rest).map (fun c => c.text)
      = rest.map fun c => c.text := by
  match rest with
  | [] => rfl
  | c :: rest1 =>
    rw [assignLoop, List.map_cons, List.map_cons,
      assignLoop_texts allChunks rest1 (prior ++ [c])]

/-- The index assigner keeps every word reachable. -/
theorem assignIndices_covers (cs : List Chunk) (w : Str)
    (h : ∃ c ∈ cs, w ∈ pyWords c.text) :
    ∃ c2 ∈ assignIndices cs, w ∈ pyWords c2.text := by
  obtain ⟨c, hc, hcw⟩ := h
  have htext : c.text ∈ (assignIndices cs).map (fun c => c.text) := by
    rw [assignIndices, assignLoop_texts]
    exact List.mem_map_of_mem _ hc
  obtain ⟨c2, hc2, hteq⟩ := List.mem_map.mp htext
  exact ⟨c2, hc2, hteq ▸ hcw⟩

/-- The words the (corrected) coverage claim promises to find in the output:
the whole input in the fallback path, and every leaf section's words in the
structural path.  Text before the first marker and the own text of a section
with subsections (its heading plus anything before its first subsection's
heading) are excluded — the assembler never emits them. -/
def coveredSourceWords (text : Str) : List Str :=
  if pyStrip text = [] then []
  else
    match detectSections text with
    | [] => pyWords text
    | s0 :: srest => ((leafTexts (s0 :: srest)).map pyWords).flatten

/-! ## Claim theorems -/

/-- Claim C6:  For every marker list (in particular every position-sorted one),
the stack-based tree builder — which pops every entry at a level `>=` the
new marker's level before pushing, and attaches the new section to the
deepest remaining (strictly lower-level) open section or makes it a root —
produces a forest in which every subsection's level is strictly greater
than its parent section's level, recursively. -/
theorem C6_tree_levels (markers : List Marker) (text : Str) :
    ∀ s ∈ buildSectionTree markers text, levelsOK s :=
  buildSectionTree_levelsOK markers text

/-- Claim C4, amended:  In the no-structure fallback path, each non-blank
paragraph (located by a cursor-advancing `find`) whose estimated token count
is **at most** `max_tokens` is emitted as exactly one chunk with structural
kind `"paragraph"` and the caller's structural path (empty in the fallback
call), and one whose token count is **strictly above** `max_tokens` is
delegated to the sliding-window splitter with the paragraph's offset as
base.  The claim's original boundary placed a paragraph with token count
exactly `max_tokens` on the delegated side; the code emits it directly. -/
theorem C4_paragraph_rule (cfg : ChunkingConfig) (bk : BookMeta)
    (text path : Str) (off : Nat) :
    chunkByParagraphs cfg bk text path off
      = paraChunksAmended cfg bk text path off := by
  rw [chunkByParagraphs, paraChunksAmended, paraLoop_eq_locate]

/-- Claim C5, amended:  Every marker the scanner produces for the four
line-anchored pattern kinds (`perek`, `siman`, `seif`, `halacha`) begins at
the start of a line; the `siman_katan` pattern has no `^` anchor and may
match mid-line. -/
theorem C5_anchored_markers (text : Str) :
    ∀ mk ∈ detectMarkers text,
      mk.type ≠ "siman_katan" → lineStartAt text mk.position := by
  intro mk hmem hty
  rw [detectMarkers, mem_sortByPos, List.mem_flatten] at hmem
  obtain ⟨ml, hml, hmk⟩ := hmem
  rw [List.mem_map] at hml
  obtain ⟨pat, hpat, hml⟩ := hml
  subst hml
  rw [scanPattern, List.mem_map] at hmk
  obtain ⟨pr, hpr, hmk⟩ := hmk
  have hstart : ∀ m2 : Bool → Str → Option Nat, (∀ l, m2 false l = none) →
      pat.2 = m2 → lineStartAt text mk.position := by
    intro m2 hm2 hpm
    rw [← hmk]
    show lineStartAt text pr.1
    refine scanAux_line_start m2 hm2 text text 0 true rfl
      (fun _ => Or.inl rfl) pr ?_
    rw [← hpm]
    exact hpr
  have hty2 : mk.type = pat.1 := by rw [← hmk]
  simp only [patternTable, List.mem_cons, List.not_mem_nil, or_false] at hpat
  rcases hpat with h | h | h | h | h
  · exact hstart matchPerek (fun l => rfl) (by rw [h])
  · exact hstart matchSiman (fun l => rfl) (by rw [h])
  · exact hstart matchSeif (fun l => rfl) (by rw [h])
  · exact hstart matchHalacha (fun l => rfl) (by rw [h])
  · exact absurd (by rw [hty2, h]) hty

/-- Claim C1:  For every document and every valid `ChunkingConfig`, every chunk
returned by `chunk` has `token_count ≤ max_tokens`, through the leaf-emission
check, the sliding-window construction and the merge pass.  Because
`token_count` is a whitespace-delimited word count, a run with no whitespace
counts as a single token, so the claim's allowance for unsplittable runs is
never needed: the bound holds unconditionally. -/
theorem C1_token_ceiling (cfg : ChunkingConfig) (hv : cfg.valid)
    (book : ParsedBook) (bid : String) :
    ∀ c ∈ chunk cfg book bid, c.token_count ≤ cfg.max_tokens := by
  have htm : cfg.target_tokens ≤ cfg.max_tokens := hv.2.2.2.2.2.1
  rw [chunk]
  split
  · simp
  · dsimp only
    apply assignIndices_bound
    apply mergeSmallChunks_bound
    split
    · exact paraLoop_bound cfg _ book.raw_text [] 0 htm
        (splitParas book.raw_text) 0
    · exact chunkSections_bound cfg _ _ [] htm

/-- Claim C7:  Every chunk in the final output of `chunk` — including merged
chunks — carries `token_count` equal to the whitespace-delimited word count
of its `text` field. -/
theorem C7_token_count_exact (cfg : ChunkingConfig) (book : ParsedBook)
    (bid : String) :
    ∀ c ∈ chunk cfg book bid, c.token_count = estimate_tokens c.text := by
  rw [chunk]
  split
  · simp
  · dsimp only
    apply assignIndices_tokenOK
    apply mergeSmallChunks_tokenOK
    split
    · exact paraLoop_tokenOK cfg _ book.raw_text [] 0 (splitParas book.raw_text) 0
    · exact chunkSections_tokenOK cfg _ _ []

/-- Claim C8:  The small-chunk merger is idempotent, equivalently its output
has no adjacent pair with the same `section_path` where the earlier chunk is
under `min_tokens` and the combined count fits `max_tokens`. -/
theorem C8_merge_idempotent (cfg : ChunkingConfig) (cs : List Chunk) :
    mergeSmallChunks cfg (mergeSmallChunks cfg cs) = mergeSmallChunks cfg cs ∧
      List.Chain' (fun a b =>
        ¬(a.token_count < cfg.min_tokens ∧
          a.token_count + b.token_count ≤ cfg.max_tokens ∧
          a.section_path = b.section_path)) (mergeSmallChunks cfg cs) :=
  merge_idempotent cfg cs

/-- Claim C10:  The merge pass never loses or reorders content: the
concatenation of the word sequences of `_merge_small_chunks`' output equals
the concatenation of the word sequences of its input. -/
theorem C10_merge_preserves_words (cfg : ChunkingConfig) (cs : List Chunk) :
    ((mergeSmallChunks cfg cs).map fun c => pyWords c.text).flatten
      = (cs.map fun c => pyWords c.text).flatten :=
  mergeSmallChunks_words cfg cs

/-- Claim C9:  After the index assigner runs: the list is unchanged except for
the two assigned fields (so order and content are preserved); within every
`section_path` group, `chunk_index` runs `0, 1, …, size-1` in list order;
and every chunk's `total_chunks_in_section` equals the number of chunks
sharing its path. -/
theorem C9_assign_indices (cs : List Chunk) :
    (((assignIndices cs).map fun c =>
        { c with chunk_index := 0, total_chunks_in_section := 1 })
      = cs.map fun c => { c with chunk_index := 0, total_chunks_in_section := 1 })
    ∧ (∀ p : Str,
        (((assignIndices cs).filter fun c => c.section_path == p).map
          fun c => c.chunk_index)
        = List.range (countPath p (assignIndices cs)))
    ∧ ((assignIndices cs).all fun c =>
        c.total_chunks_in_section
          == countPath c.section_path (assignIndices cs)) = true := by
  refine ⟨assignLoop_erase cs cs [], fun p => ?_, ?_⟩
  · rw [countPath_assignIndices, assignIndices, assignLoop_filter_idx cs p cs [],
      List.range_eq_range']
    rfl
  · rw [List.all_eq_true]
    intro c hc
    rw [beq_iff_eq, countPath_assignIndices]
    exact assignLoop_total cs cs [] c hc

/-- Claim C3, code evaluation:  `ChunkingConfig` performs no bounds
validation: construction with `max_tokens = 10 < 50 = min_tokens` — invalid
per the specification — succeeds.  The repository declares no
`ConfigurationError` and the pydantic model in `src/config.py` has no
validators, so no invalid combination is ever rejected. -/
theorem C3_construct_accepts_invalid :
    ¬ChunkingConfig.valid ⟨450, 10, 50, 5⟩ ∧
      ChunkingConfig.construct 450 10 50 5
        = Except.ok (⟨450, 10, 50, 5⟩ : ChunkingConfig) := by
  constructor
  · intro hv
    have h := hv.2.2.2.2.2.1
    simp only [ChunkingConfig.max_tokens, ChunkingConfig.target_tokens] at h
    omega
  · rfl

/-- Claim C2, amended:  For every valid config and document, every word the
assembler is actually given — the whole input in the no-structure fallback
path, and each leaf section's text in the structural path — appears in some
chunk of the final output.  Text preceding the first structural marker and a
parent section's own text (its heading line plus anything up to its first
subsection's heading) are excluded: the assembler never emits them, as the
counterexample shows. -/
theorem C2_leaf_coverage (cfg : ChunkingConfig) (hv : cfg.valid)
    (book : ParsedBook) (bid : String) :
    ∀ w ∈ coveredSourceWords book.raw_text,
      ∃ c ∈ chunk cfg book bid, w ∈ pyWords c.text := by
  have ht : 1 ≤ cfg.target_tokens := hv.1
  intro w hw
  rw [coveredSourceWords] at hw
  rw [chunk]
  split
  case isTrue hstrip =>
    rw [if_pos hstrip] at hw
    exact absurd hw (List.not_mem_nil w)
  case isFalse hstrip =>
    rw [if_neg hstrip] at hw
    dsimp only
    apply assignIndices_covers
    apply mergeSmallChunks_covers
    rcases hdet : detectSections book.raw_text with _ | ⟨s0, srest⟩
    · rw [hdet] at hw
      rw [splitParas_words] at hw
      obtain ⟨l, hl, hwl⟩ := List.mem_flatten.mp hw
      obtain ⟨para, hpara, hpeq⟩ := List.mem_map.mp hl
      exact paraLoop_covers cfg _ book.raw_text [] 0 ht
        (splitParas book.raw_text) 0 para hpara w (hpeq ▸ hwl)
    · rw [hdet] at hw
      obtain ⟨l, hl, hwl⟩ := List.mem_flatten.mp hw
      obtain ⟨t, htm, hteq⟩ := List.mem_map.mp hl
      exact chunkSections_covers cfg _ ht (s0 :: srest) [] t htm w (hteq ▸ hwl)

/-! ## Concrete instances: counterexamples and witnesses -/

/-- A valid example configuration. -/
def exCfg : ChunkingConfig := ⟨5, 8, 3, 2⟩

theorem exCfg_valid : exCfg.valid := by
  simp only [ChunkingConfig.valid, exCfg]
  omega

/-- A document whose parent `סימן` section has its own text (`בבב`) between
its heading and its first `סעיף` subsection's heading. -/
def c2Book : ParsedBook :=
  { title := "T", author := "A", language := "he",
    raw_text := "סימן א\nבבב\nסעיף ב\nגגג".data,
    source_path := "p", file_format := "txt" }

/-- The single chunk the pipeline produces for `c2Book`. -/
def c2Chunk : Chunk :=
  { id := "", text := "סעיף ב\nגגג".data, book_id := "B", book_title := "T",
    book_author := "A", section_path := "סימן א > סעיף ב".data,
    section_type := "seif", chunk_index := 0, total_chunks_in_section := 1,
    language := "he", char_start := 11, char_end := 21, token_count := 3 }

set_option maxRecDepth 10000 in
set_option maxHeartbeats 2000000 in
theorem c2_run_eval : chunk exCfg c2Book "B" = [c2Chunk] := by
  simp [chunk, exCfg, c2Book, c2Chunk, detectSections, detectMarkers,
    patternTable, scanPattern, scanAux, matchPerek, matchSiman, matchSeif,
    matchKeywordHeading, matchHalacha, matchSimanKatan, simanKatanTail,
    tailBlankLen, tailBlankLen.go, lastNl, dollarAt, wsCount, hebCount,
    isPySpace, isHebrewLetter, isGershChar, markerTitle, pyStrip, stripEnd,
    sortByPos, insertByPos, buildSectionTree, buildLoop, popGE, flushAll,
    Frame.finalize, hierarchyLevel, chunkSections, chunkOneSection,
    buildSectionPath, estimate_tokens, pyWords, slidingWindowChunks,
    slidingLoop, joinSep, mergeSmallChunks, mergeLoop, mergeCond,
    combineChunks, assignIndices, assignLoop, countPath, Section.title,
    Section.subsections, Section.level, List.takeWhile, List.dropWhile]

set_option maxRecDepth 10000 in
set_option maxHeartbeats 1000000 in
theorem c2_words_eval : pyWords c2Book.raw_text
    = ["סימן".data, "א".data, "בבב".data, "סעיף".data, "ב".data, "גגג".data] := by
  simp [pyWords, isPySpace, c2Book, List.takeWhile, List.dropWhile]

set_option maxRecDepth 10000 in
set_option maxHeartbeats 1000000 in
theorem c2_chunk_words_eval : pyWords c2Chunk.text
    = ["סעיף".data, "ב".data, "גגג".data] := by
  simp [pyWords, isPySpace, c2Chunk, List.takeWhile, List.dropWhile]

/-- Claim C2, counterexample:  On `c2Book` — with the valid default-shaped
config `exCfg` — the word `בבב`, which lies between the parent `סימן`
heading and its first subsection's `סעיף` heading, occurs in the input text
but in no chunk of the output: the coverage claim fails as stated. -/
theorem C2_counterexample :
    ((pyWords c2Book.raw_text).contains "בבב".data) = true ∧
      ((chunk exCfg c2Book "B").all
        fun c => !((pyWords c.text).contains "בבב".data)) = true := by
  constructor
  · rw [c2_words_eval]
    decide
  · rw [c2_run_eval, List.all_cons, c2_chunk_words_eval]
    decide

/-- Claim C2, amended, witness: the leaf word `גגג` of `c2Book` is indeed
found in a chunk of the output. -/
theorem C2_leaf_coverage_witness :
    exCfg.valid ∧ "גגג".data ∈ coveredSourceWords c2Book.raw_text ∧
      ∃ c ∈ chunk exCfg c2Book "B", "גגג".data ∈ pyWords c.text := by
  have hmem : "גגג".data ∈ coveredSourceWords c2Book.raw_text := by
    simp [coveredSourceWords, leafTexts, sectionLeafTexts, c2Book,
      detectSections, detectMarkers, patternTable, scanPattern, scanAux,
      matchPerek, matchSiman, matchSeif, matchKeywordHeading, matchHalacha,
      matchSimanKatan, simanKatanTail, tailBlankLen, tailBlankLen.go, lastNl,
      dollarAt, wsCount, hebCount, isPySpace, isHebrewLetter, isGershChar,
      markerTitle, pyStrip, stripEnd, sortByPos, insertByPos,
      buildSectionTree, buildLoop, popGE, flushAll, Frame.finalize,
      hierarchyLevel, pyWords, Section.subsections, List.takeWhile,
      List.dropWhile]
  exact ⟨exCfg_valid, hmem,
    C2_leaf_coverage exCfg exCfg_valid c2Book "B" _ hmem⟩

/-- Claim C1 witness: the concrete run on `c2Book` discharges the claim's
hypotheses. -/
theorem C1_token_ceiling_witness :
    exCfg.valid ∧ c2Chunk ∈ chunk exCfg c2Book "B" ∧
      c2Chunk.token_count ≤ exCfg.max_tokens := by
  have hmem : c2Chunk ∈ chunk exCfg c2Book "B" := by
    rw [c2_run_eval]
    exact List.mem_singleton.mpr rfl
  exact ⟨exCfg_valid, hmem,
    C1_token_ceiling exCfg exCfg_valid c2Book "B" c2Chunk hmem⟩

/-- Claim C7 witness: the concrete run on `c2Book` discharges the claim's
hypotheses. -/
theorem C7_token_count_exact_witness :
    c2Chunk ∈ chunk exCfg c2Book "B" ∧
      c2Chunk.token_count = estimate_tokens c2Chunk.text := by
  have hmem : c2Chunk ∈ chunk exCfg c2Book "B" := by
    rw [c2_run_eval]
    exact List.mem_singleton.mpr rfl
  exact ⟨hmem, C7_token_count_exact exCfg c2Book "B" c2Chunk hmem⟩

/-- A valid configuration whose `max_tokens` equals the example paragraph's
token count, exposing the boundary of claim C4. -/
def c4Cfg : ChunkingConfig := ⟨2, 2, 1, 1⟩

def c4Bk : BookMeta := ⟨"B", "T", "A", "he"⟩

set_option maxRecDepth 8000 in
set_option maxHeartbeats 2000000 in
theorem c4_code_eval : chunkByParagraphs c4Cfg c4Bk "a b ".data [] 0
    = [{ id := "", text := "a b".data, book_id := "B", book_title := "T",
         book_author := "A", section_path := [], section_type := "paragraph",
         chunk_index := 0, total_chunks_in_section := 1, language := "he",
         char_start := 0, char_end := 4, token_count := 2 }] := by
  simp [chunkByParagraphs, paraLoop, splitParas, splitParasAux, blankMatchLen,
    lastNl, isPySpace, pyStrip, stripEnd, strFindFrom, strFindAux,
    List.isPrefixOf, estimate_tokens, pyWords, slidingWindowChunks,
    slidingLoop, joinSep, c4Cfg, c4Bk, List.takeWhile, List.dropWhile]

set_option maxRecDepth 8000 in
set_option maxHeartbeats 2000000 in
theorem c4_split_eval : splitParas "a b ".data = ["a b ".data] := by
  simp [splitParas, splitParasAux, blankMatchLen, lastNl, isPySpace]

set_option maxRecDepth 8000 in
set_option maxHeartbeats 2000000 in
theorem c4_locate_eval : locateParas "a b ".data ["a b ".data] 0
    = [("a b ".data, 0, 4)] := by
  simp [locateParas, pyStrip, stripEnd, isPySpace, strFindFrom, strFindAux,
    List.isPrefixOf, List.takeWhile, List.dropWhile]

theorem c4_strip_eval : pyStrip "a b ".data = "a b".data := by
  simp [pyStrip, stripEnd, isPySpace, List.takeWhile, List.dropWhile]

theorem c4_tokens_eval : estimate_tokens "a b".data = 2 := by
  simp [estimate_tokens, pyWords, isPySpace, List.takeWhile, List.dropWhile]

set_option maxRecDepth 8000 in
set_option maxHeartbeats 2000000 in
theorem c4_window_eval : slidingWindowChunks c4Cfg c4Bk "a b".data [] "paragraph" 0
    = [{ id := "", text := "a b".data, book_id := "B", book_title := "T",
         book_author := "A", section_path := [], section_type := "paragraph",
         chunk_index := 0, total_chunks_in_section := 1, language := "he",
         char_start := 0, char_end := 3, token_count := 2 }] := by
  simp [slidingWindowChunks, slidingLoop, pyWords, isPySpace, pyStrip,
    stripEnd, joinSep, c4Cfg, c4Bk, List.takeWhile, List.dropWhile]

set_option maxRecDepth 8000 in
set_option maxHeartbeats 2000000 in
theorem c4_claim_eval : paraChunksClaim c4Cfg c4Bk "a b ".data [] 0
    = [{ id := "", text := "a b".data, book_id := "B", book_title := "T",
         book_author := "A", section_path := [], section_type := "paragraph",
         chunk_index := 0, total_chunks_in_section := 1, language := "he",
         char_start := 0, char_end := 3, token_count := 2 }] := by
  rw [paraChunksClaim, c4_split_eval, c4_locate_eval, List.flatMap_cons]
  dsimp only
  rw [c4_strip_eval, c4_tokens_eval]
  rw [if_pos (by simp [c4Cfg])]
  rw [Nat.add_zero, c4_window_eval, List.flatMap_nil, List.append_nil]

/-- Claim C4, counterexample:  On the single-paragraph text `"a b "` under the
valid config `c4Cfg` (whose `max_tokens` equals the paragraph's token count
2), the code emits the paragraph directly (`char_end` 4, the paragraph's
end), while the claim's "at or above" rule delegates it to the splitter
(`char_end` 3): the fallback path does not implement the claim as stated. -/
theorem C4_counterexample :
    chunkByParagraphs c4Cfg c4Bk "a b ".data [] 0
      ≠ paraChunksClaim c4Cfg c4Bk "a b ".data [] 0 := by
  rw [c4_code_eval, c4_claim_eval]
  decide

/-- The text in which a `siman_katan` reference occurs mid-line. -/
def c5Text : Str := "א ס\"ק ב".data

set_option maxRecDepth 8000 in
set_option maxHeartbeats 2000000 in
theorem c5_eval : detectMarkers c5Text
    = [⟨"siman_katan", "ס\"ק ב".data, 2, 4⟩] := by
  simp [detectMarkers, patternTable, scanPattern, scanAux, matchPerek,
    matchSiman, matchSeif, matchKeywordHeading, matchHalacha, matchSimanKatan,
    simanKatanTail, tailBlankLen, tailBlankLen.go, lastNl, dollarAt, wsCount,
    hebCount, isPySpace, isHebrewLetter, isGershChar, markerTitle, pyStrip,
    stripEnd, sortByPos, insertByPos, hierarchyLevel, c5Text, List.takeWhile,
    List.dropWhile]

/-- Claim C5, counterexample:  In `"א ס\"ק ב"` the scanner produces a
`siman_katan` marker at offset 2, which is preceded by a space, not a
newline: not every marker begins at a line start. -/
theorem C5_counterexample :
    (⟨"siman_katan", "ס\"ק ב".data, 2, 4⟩ : Marker) ∈ detectMarkers c5Text ∧
      ¬lineStartAt c5Text 2 := by
  constructor
  · rw [c5_eval]
    exact List.mem_singleton.mpr rfl
  · show ¬(2 = 0 ∨ c5Text.get? 1 = some '\n')
    decide

def c5wMarker : Marker := ⟨"siman", "סימן א".data, 0, 1⟩

set_option maxRecDepth 8000 in
set_option maxHeartbeats 2000000 in
theorem c5w_eval : detectMarkers "סימן א".data = [c5wMarker] := by
  simp [detectMarkers, patternTable, scanPattern, scanAux, matchPerek,
    matchSiman, matchSeif, matchKeywordHeading, matchHalacha, matchSimanKatan,
    simanKatanTail, tailBlankLen, tailBlankLen.go, lastNl, dollarAt, wsCount,
    hebCount, isPySpace, isHebrewLetter, isGershChar, markerTitle, pyStrip,
    stripEnd, sortByPos, insertByPos, hierarchyLevel, c5wMarker,
    List.takeWhile, List.dropWhile]

/-- Claim C5, amended, witness: the `siman` marker of `"סימן א"` is line
anchored. -/
theorem C5_anchored_markers_witness :
    c5wMarker ∈ detectMarkers "סימן א".data ∧
      c5wMarker.type ≠ "siman_katan" ∧
      lineStartAt "סימן א".data c5wMarker.position := by
  have hmem : c5wMarker ∈ detectMarkers "סימן א".data := by
    rw [c5w_eval]
    exact List.mem_singleton.mpr rfl
  exact ⟨hmem, by decide,
    C5_anchored_markers "סימן א".data c5wMarker hmem (by decide)⟩

def c6Markers : List Marker :=
  [⟨"siman", "סימן א".data, 0, 1⟩, ⟨"seif", "סעיף ב".data, 7, 3⟩]

def c6Text : Str := "סימן א\nסעיף ב".data

def c6Root : Section :=
  .mk "siman" "סימן א".data "סימן א".data 0 7
    [.mk "seif" "סעיף ב".data "סעיף ב".data 7 13 [] 3] 1

set_option maxRecDepth 8000 in
set_option maxHeartbeats 1000000 in
theorem c6_eval : buildSectionTree c6Markers c6Text = [c6Root] := by
  simp [buildSectionTree, buildLoop, popGE, flushAll, Frame.finalize,
    c6Markers, c6Text, c6Root, pyStrip, stripEnd, isPySpace, List.takeWhile,
    List.dropWhile]

/-- Claim C6 witness: the two-marker tree satisfies the level invariant. -/
theorem C6_tree_levels_witness :
    c6Root ∈ buildSectionTree c6Markers c6Text ∧ levelsOK c6Root := by
  have hmem : c6Root ∈ buildSectionTree c6Markers c6Text := by
    rw [c6_eval]
    exact List.mem_singleton.mpr rfl
  exact ⟨hmem, C6_tree_levels c6Markers c6Text c6Root hmem⟩

end HalachicChunking
